import Mathlib

/-!
# OrderBook: a shallow embedding of `src/main.cpp`

The limit order book of `main.cpp` (classes `Order`, `OrderModify`, `Trade`,
`Orderbook`) is embedded as pure functions on an explicit book state.

Modelling conventions:

* `Price` (`std::int32_t`) is `Int` and is only ever compared; `Quantity`
  (`std::uint32_t`) is `Nat`.  The one place where quantities are added,
  `GetOrderInfos`, reduces the sum modulo `2 ^ 32`.  `Order::Fill` subtracts only
  after checking `qty <= remainingQty`, so that subtraction cannot wrap.
* `std::map<Price, OrderPointers, Cmp>` is an association list kept in the order of
  the comparator (`bids`: descending, `asks`: ascending); `begin()` is the head.
* `std::list<OrderPointer>` is a list of `Node`s.  A node carries its address, which is
  what a stored `std::list` iterator designates, together with the `Order` object that
  its `shared_ptr` points to.  Every call of `AddOrder` is taken to receive a freshly
  made order object (as `main` and `ModifyOrder` do), so distinct nodes never share an
  `Order` object.
* `std::unordered_map<OrderId, OrderEntry>` is an association list with unique keys.  An
  entry records the fields that the code reads through `OrderEntry::order` (type, side
  and price never change once an order is constructed) and the stored iterator
  `OrderEntry::location` as a node address.
* A thrown exception, or the use of an iterator that designates no node of the list it is
  used on, is an `Error` result.  The two `while` loops of `MatchOrders` are iterated
  under a fuel bound; running out of fuel is the separate result `Error.fuel`, and the
  theorems below show that it never occurs.
-/

namespace OrderBook

inductive OrderType where
  | GoodTillCancel
  | FillAndKill
  deriving DecidableEq

inductive Side where
  | Buy
  | Sell
  deriving DecidableEq

deriving instance DecidableEq for Except

abbrev Price := Int
abbrev Quantity := Nat
abbrev OrderId := Nat

/-- Abnormal outcomes: `overfill` is the `std::logic_error` of `Order::Fill`,
`outOfRange` the `std::out_of_range` of `std::map::at`, `invalidIterator` the use of a
stored iterator on a list that has no such node, `fuel` an unfinished loop. -/
inductive Error where
  | overfill (id : OrderId)
  | outOfRange
  | invalidIterator
  | fuel
  deriving DecidableEq

structure LevelInfo where
  price : Price
  quantity : Quantity
  deriving DecidableEq

abbrev LevelInfos := List LevelInfo

structure Order where
  type : OrderType
  id : OrderId
  side : Side
  price : Price
  initialQty : Quantity
  remainingQty : Quantity
  deriving DecidableEq

/-- The constructor `Order(type, id, side, price, qty)`. -/
def Order.new (type : OrderType) (id : OrderId) (side : Side) (price : Price)
    (qty : Quantity) : Order :=
  { type := type, id := id, side := side, price := price, initialQty := qty,
    remainingQty := qty }

/-- `Order::IsFilled`. -/
def Order.IsFilled (o : Order) : Bool := o.remainingQty == 0

/-- `Order::Fill`: throws when `qty > remainingQty`, else subtracts. -/
def Order.Fill (o : Order) (qty : Quantity) : Except Error Order :=
  if qty > o.remainingQty then .error (.overfill o.id)
  else .ok { o with remainingQty := o.remainingQty - qty }

structure OrderModify where
  id : OrderId
  side : Side
  price : Price
  qty : Quantity
  deriving DecidableEq

/-- `OrderModify::ToOrderPointer`: a new order with the fields of the modification. -/
def OrderModify.ToOrderPointer (m : OrderModify) (type : OrderType) : Order :=
  Order.new type m.id m.side m.price m.qty

structure TradeInfo where
  id : OrderId
  price : Price
  qty : Quantity
  deriving DecidableEq

structure Trade where
  bid : TradeInfo
  ask : TradeInfo
  deriving DecidableEq

abbrev Trades := List Trade

structure OrderbookLevelInfos where
  bids : LevelInfos
  asks : LevelInfos
  deriving DecidableEq

/-- A node of a `std::list<OrderPointer>`: its address and the order it points to. -/
structure Node where
  addr : Nat
  order : Order
  deriving DecidableEq

abbrev OrderPointers := List Node

/-- The struct `Orderbook::OrderEntry`: what is read through `order`, and `location`. -/
structure OrderEntry where
  type : OrderType
  side : Side
  price : Price
  location : Nat
  deriving DecidableEq

abbrev Levels := List (Price × OrderPointers)
abbrev Registry := List (OrderId × OrderEntry)

structure Orderbook where
  bids : Levels
  asks : Levels
  orders : Registry
  deriving DecidableEq

/-- A default-constructed `Orderbook`. -/
def Orderbook.empty : Orderbook := { bids := [], asks := [], orders := [] }

/-! ### `std::unordered_map` operations on the registry -/

/-- `orders.find(id)`: the entry stored under `id`, if any. -/
def Registry.find (r : Registry) (id : OrderId) : Option OrderEntry :=
  match r with
  | [] => none
  | (k, e) :: rest => if k = id then some e else Registry.find rest id

/-- `orders.erase(id)`. -/
def Registry.erase (r : Registry) (id : OrderId) : Registry :=
  r.filter (fun kv => kv.1 ≠ id)

/-- `orders[id] = e`: overwrite the entry under `id`, or add one. -/
def Registry.assign (r : Registry) (id : OrderId) (e : OrderEntry) : Registry :=
  match r with
  | [] => [(id, e)]
  | (k, old) :: rest =>
    if k = id then (k, e) :: rest else (k, old) :: Registry.assign rest id e

/-! ### `std::map` and `std::list` operations on one side of the book -/

/-- The comparator of a side: `std::greater` for bids, `std::less` for asks. -/
def Side.before (s : Side) (p q : Price) : Bool :=
  match s with
  | .Buy => decide (q < p)
  | .Sell => decide (p < q)

/-- `levels.find(price)`: the queue at `price`, if that level exists. -/
def Levels.find (ls : Levels) (price : Price) : Option OrderPointers :=
  match ls with
  | [] => none
  | (p, q) :: rest => if p = price then some q else Levels.find rest price

/-- `levels[price].push_back(n)`: `operator[]` creates the level (at its place in the
comparator order) when it is absent. -/
def Levels.pushBack (s : Side) (ls : Levels) (price : Price) (n : Node) : Levels :=
  match ls with
  | [] => [(price, [n])]
  | (p, q) :: rest =>
    if p = price then (p, q ++ [n]) :: rest
    else if s.before price p then (price, [n]) :: (p, q) :: rest
    else (p, q) :: Levels.pushBack s rest price n

/-- `levels.erase(price)`. -/
def Levels.erase (ls : Levels) (price : Price) : Levels :=
  ls.filter (fun l => l.1 ≠ price)

/-- Replace the queue of the level at `price`. -/
def Levels.set (ls : Levels) (price : Price) (q : OrderPointers) : Levels :=
  ls.map (fun l => if l.1 = price then (l.1, q) else l)

/-- `list.erase(it)` for the iterator designating the node at address `loc`; `none` when
the list has no such node. -/
def eraseNode (list : OrderPointers) (loc : Nat) : Option OrderPointers :=
  match list with
  | [] => none
  | n :: rest =>
    if n.addr = loc then some rest
    else match eraseNode rest loc with
      | none => none
      | some rest1 => some (n :: rest1)

/-- All nodes of a side, in priority order (level by level, each queue front to back). -/
def Levels.nodes (ls : Levels) : List Node :=
  match ls with
  | [] => []
  | (_, q) :: rest => q ++ Levels.nodes rest

/-- An address not used by any node of the book, for the node made by `push_back`. -/
def Orderbook.freshAddr (b : Orderbook) : Nat :=
  ((b.bids.nodes ++ b.asks.nodes).map Node.addr).foldr max 0 + 1

/-! ### The member functions of `Orderbook` -/

/-- `Orderbook::CanMatch`: the front level of the opposing side exists and its price
crosses `price`. -/
def Orderbook.CanMatch (b : Orderbook) (side : Side) (price : Price) : Bool :=
  match side, b.bids, b.asks with
  | .Buy, _, (askPrice, _) :: _ => decide (price ≥ askPrice)
  | .Sell, (bidPrice, _) :: _, _ => decide (price ≤ bidPrice)
  | _, _, _ => false

/-- The body of the inner loop of `MatchOrders` for the fronts `bid` and `ask` of the two
queues: fill both by the smaller remaining quantity, record the trade, and erase and pop
each of the two orders that became filled. -/
def matchFront (bid ask : Node) (bidRest askRest : OrderPointers) (orders : Registry)
    (trades : Trades) : Except Error (OrderPointers × OrderPointers × Registry × Trades) :=
  let qty := min bid.order.remainingQty ask.order.remainingQty
  match bid.order.Fill qty with
  | .error e => .error e
  | .ok bidOrder =>
    match ask.order.Fill qty with
    | .error e => .error e
    | .ok askOrder =>
      let trades1 := trades ++
        [{ bid := { id := bidOrder.id, price := bidOrder.price, qty := qty },
           ask := { id := askOrder.id, price := askOrder.price, qty := qty } }]
      let orders1 := if bidOrder.IsFilled then orders.erase bidOrder.id else orders
      let bidList1 :=
        if bidOrder.IsFilled then bidRest else { bid with order := bidOrder } :: bidRest
      let orders2 := if askOrder.IsFilled then orders1.erase askOrder.id else orders1
      let askList1 :=
        if askOrder.IsFilled then askRest else { ask with order := askOrder } :: askRest
      .ok (bidList1, askList1, orders2, trades1)

/-- The inner `while (!bidList.empty() && !askList.empty())` loop of `MatchOrders` on the
two front queues. -/
def matchLevel (fuel : Nat) (bidList askList : OrderPointers) (orders : Registry)
    (trades : Trades) : Except Error (OrderPointers × OrderPointers × Registry × Trades) :=
  match fuel, bidList, askList with
  | _, [], _ => .ok (bidList, askList, orders, trades)
  | _, _ :: _, [] => .ok (bidList, askList, orders, trades)
  | 0, _ :: _, _ :: _ => .error .fuel
  | fuel + 1, bid :: bidRest, ask :: askRest =>
    match matchFront bid ask bidRest askRest orders trades with
    | .error e => .error e
    | .ok (bidList1, askList1, orders1, trades1) =>
      matchLevel fuel bidList1 askList1 orders1 trades1

/-- The outer `while (!bids.empty() && !asks.empty())` loop of `MatchOrders`. -/
def matchLoop (fuel : Nat) (bids asks : Levels) (orders : Registry) (trades : Trades) :
    Except Error (Trades × Orderbook) :=
  match bids, asks with
  | [], _ => .ok (trades, { bids := bids, asks := asks, orders := orders })
  | _ :: _, [] => .ok (trades, { bids := bids, asks := asks, orders := orders })
  | (bidPrice, bidList) :: bidsRest, (askPrice, askList) :: asksRest =>
    if bidPrice < askPrice then
      .ok (trades, { bids := bids, asks := asks, orders := orders })
    else
      match fuel with
      | 0 => .error .fuel
      | fuel + 1 =>
        match matchLevel (bidList.length + askList.length) bidList askList orders trades with
        | .error e => .error e
        | .ok (bidList1, askList1, orders1, trades1) =>
          let bids1 := if bidList1.isEmpty then bidsRest else (bidPrice, bidList1) :: bidsRest
          let asks1 := if askList1.isEmpty then asksRest else (askPrice, askList1) :: asksRest
          matchLoop fuel bids1 asks1 orders1 trades1

/-- `Orderbook::MatchOrders`: the outer loop, started with an empty trade list.  Each pass
of the outer loop that does not leave it erases a level, and each pass of the inner loop
pops a node, which is what the two fuel bounds count. -/
def Orderbook.MatchOrders (b : Orderbook) : Except Error (Trades × Orderbook) :=
  matchLoop (b.bids.length + b.asks.length) b.bids b.asks b.orders []

/-- `Orderbook::AddOrder`.  The first guard is the one of the source,
`if (orders.find(order->GetId()) == orders.end()) return {};`: it returns when the id is
not registered. -/
def Orderbook.AddOrder (b : Orderbook) (order : Order) : Except Error (Trades × Orderbook) :=
  if b.orders.find order.id = none then .ok ([], b)
  else if order.type = OrderType.FillAndKill ∧ ¬ b.CanMatch order.side order.price then
    .ok ([], b)
  else
    let node : Node := { addr := b.freshAddr, order := order }
    let entry : OrderEntry :=
      { type := order.type, side := order.side, price := order.price, location := node.addr }
    match order.side with
    | .Buy =>
      Orderbook.MatchOrders
        { b with bids := b.bids.pushBack .Buy order.price node,
                 orders := b.orders.assign order.id entry }
    | .Sell =>
      Orderbook.MatchOrders
        { b with asks := b.asks.pushBack .Sell order.price node,
                 orders := b.orders.assign order.id entry }

/-- The branch of `CancelOrder` for one side: `at(price)`, `list.erase(listIt)`, and
`erase(price)` when the queue became empty. -/
def cancelInLevels (ls : Levels) (price : Price) (loc : Nat) : Except Error Levels :=
  match ls.find price with
  | none => .error .outOfRange
  | some list =>
    match eraseNode list loc with
    | none => .error .invalidIterator
    | some list1 => if list1.isEmpty then .ok (ls.erase price) else .ok (ls.set price list1)

/-- `Orderbook::CancelOrder`. -/
def Orderbook.CancelOrder (b : Orderbook) (id : OrderId) : Except Error Orderbook :=
  match b.orders.find id with
  | none => .ok b
  | some entry =>
    match entry.side with
    | .Buy =>
      match cancelInLevels b.bids entry.price entry.location with
      | .error e => .error e
      | .ok bids1 => .ok { b with bids := bids1, orders := b.orders.erase id }
    | .Sell =>
      match cancelInLevels b.asks entry.price entry.location with
      | .error e => .error e
      | .ok asks1 => .ok { b with asks := asks1, orders := b.orders.erase id }

/-- `Orderbook::ModifyOrder`: read the type of the registered order, cancel it, and add
the order made from the modification. -/
def Orderbook.ModifyOrder (b : Orderbook) (mod : OrderModify) :
    Except Error (Trades × Orderbook) :=
  match b.orders.find mod.id with
  | none => .ok ([], b)
  | some entry =>
    let oldType := entry.type
    match b.CancelOrder mod.id with
    | .error e => .error e
    | .ok b1 => b1.AddOrder (mod.ToOrderPointer oldType)

/-- `Orderbook::Size`. -/
def Orderbook.Size (b : Orderbook) : Nat := b.orders.length

/-- The lambda `createLevel` of `GetOrderInfos`: `std::accumulate` in `Quantity`. -/
def createLevel (p : Price) (orders : OrderPointers) : LevelInfo :=
  { price := p,
    quantity := orders.foldl (fun sum o => (sum + o.order.remainingQty) % 2 ^ 32) 0 }

/-- `Orderbook::GetOrderInfos`: one `LevelInfo` per level, each side in map order. -/
def Orderbook.GetOrderInfos (b : Orderbook) : OrderbookLevelInfos :=
  { bids := b.bids.map (fun l => createLevel l.1 l.2),
    asks := b.asks.map (fun l => createLevel l.1 l.2) }

/-! ### Book invariants -/

/-- The side of the book that holds the orders of side `s`. -/
def Orderbook.levels (b : Orderbook) (s : Side) : Levels :=
  match s with
  | .Buy => b.bids
  | .Sell => b.asks

/-- The queue at `price`, empty when the level does not exist. -/
def Levels.queue (ls : Levels) (price : Price) : OrderPointers :=
  (ls.find price).getD []

/-- The `std::map` invariant: keys strictly ordered by the comparator of the side. -/
def Levels.Sorted (s : Side) (ls : Levels) : Prop :=
  (ls.map Prod.fst).Pairwise (fun p q => s.before p q = true)

/-- The container invariants of the two maps. -/
def Orderbook.MapsSorted (b : Orderbook) : Prop :=
  Levels.Sorted .Buy b.bids ∧ Levels.Sorted .Sell b.asks

/-- No level has an empty queue. -/
def Levels.NoEmpty (ls : Levels) : Prop :=
  ∀ l ∈ ls, l.2 ≠ []

/-- Every node of side `s` holds an order of that side and of the price of its level, and
the registry maps the order id to that node. -/
def Orderbook.NodesRegistered (b : Orderbook) (s : Side) : Prop :=
  ∀ l ∈ b.levels s, ∀ n ∈ l.2,
    n.order.side = s ∧ n.order.price = l.1 ∧
    b.orders.find n.order.id =
      some { type := n.order.type, side := s, price := l.1, location := n.addr }

/-- Every registry entry designates a node, in the queue of its side and price, that holds
an order with the registered id. -/
def Orderbook.EntriesLocated (b : Orderbook) : Prop :=
  ∀ kv ∈ b.orders, ∃ n ∈ (b.levels kv.2.side).queue kv.2.price,
    n.addr = kv.2.location ∧ n.order.id = kv.1

/-- A well-formed book: the container invariants of the maps and of the registry, no
empty level, distinct node addresses, and the registry and the queues describe the same
orders. -/
def Orderbook.WellFormed (b : Orderbook) : Prop :=
  b.MapsSorted ∧ b.bids.NoEmpty ∧ b.asks.NoEmpty ∧
  (b.orders.map Prod.fst).Nodup ∧
  ((b.bids.nodes ++ b.asks.nodes).map Node.addr).Nodup ∧
  b.NodesRegistered .Buy ∧ b.NodesRegistered .Sell ∧ b.EntriesLocated

instance (s : Side) (ls : Levels) : Decidable (Levels.Sorted s ls) := by
  unfold Levels.Sorted; infer_instance

instance (b : Orderbook) : Decidable b.MapsSorted := by
  unfold Orderbook.MapsSorted; infer_instance

instance (ls : Levels) : Decidable ls.NoEmpty := by
  unfold Levels.NoEmpty; infer_instance

instance (b : Orderbook) (s : Side) : Decidable (b.NodesRegistered s) := by
  unfold Orderbook.NodesRegistered; infer_instance

instance (b : Orderbook) : Decidable b.EntriesLocated := by
  unfold Orderbook.EntriesLocated; infer_instance

instance (b : Orderbook) : Decidable b.WellFormed := by
  unfold Orderbook.WellFormed; infer_instance

/-- The levels with every order of id `id` taken out of its queue, the other orders
keeping their level and their relative position, and with every level deleted whose queue
became empty. -/
def Levels.without (ls : Levels) (id : OrderId) : Levels :=
  (ls.map (fun l => (l.1, l.2.filter (fun n => decide (n.order.id ≠ id))))).filter
    (fun l => decide (l.2 ≠ []))

/-- The book is not crossed: a side has no level, or every bid price (so also the
highest) is strictly below every ask price (so also the lowest). -/
def Orderbook.NotCrossed (b : Orderbook) : Prop :=
  b.bids = [] ∨ b.asks = [] ∨ ∀ bl ∈ b.bids, ∀ al ∈ b.asks, bl.1 < al.1

instance (b : Orderbook) : Decidable b.NotCrossed := by
  unfold Orderbook.NotCrossed; infer_instance

/-! ### Vocabulary for the matching loop -/

/-- The node `n` with the remaining quantity of its order set to `r`: what `Fill` leaves
of it. -/
def Node.withRemaining (n : Node) (r : Quantity) : Node :=
  { n with order := { n.order with remainingQty := r } }

/-- The list `l1` is what matching from the front leaves of the priority-ordered list
`l`: some first nodes of `l` are gone and the nodes behind them are untouched, except that
the first node left may have a smaller remaining quantity. -/
def Residual (l l1 : List Node) : Prop :=
  ∃ k, l1 = l.drop k ∨
    ∃ n rest r, l.drop k = n :: rest ∧ r ≤ n.order.remainingQty ∧
      l1 = n.withRemaining r :: rest

/-- The node `m` is ahead of the node `n` on a side: `m` rests at a strictly better price
(one that the comparator of the side puts first), or in the same queue and earlier. -/
def Levels.Ahead (s : Side) (ls : Levels) (m n : Node) : Prop :=
  (∃ lm ∈ ls, ∃ ln ∈ ls, m ∈ lm.2 ∧ n ∈ ln.2 ∧ s.before lm.1 ln.1 = true) ∨
  (∃ l ∈ ls, ∃ pre mid post, l.2 = pre ++ m :: (mid ++ n :: post))

/-- The fill record of a trade for a side: `GetBid()` for buys, `GetAsk()` for sells. -/
def Trade.leg (t : Trade) (s : Side) : TradeInfo :=
  match s with
  | .Buy => t.bid
  | .Sell => t.ask

/-- The total quantity of the trades whose record for side `s` names the order `id`. -/
def filledQty (trades : Trades) (s : Side) (id : OrderId) : Quantity :=
  (trades.map (fun t => if (t.leg s).id = id then (t.leg s).qty else 0)).sum

/-- The total remaining quantity of the nodes that hold an order of id `id`. -/
def restingQty (nodes : List Node) (id : OrderId) : Quantity :=
  (nodes.map (fun n => if n.order.id = id then n.order.remainingQty else 0)).sum

/-- The sum of the remaining quantities of the orders of a queue, as a natural number. -/
def queueQty (orders : OrderPointers) : Nat :=
  (orders.map (fun n => n.order.remainingQty)).sum

/-- Both records of the trade `t` carry the id and the limit price of an order that
rested on their side of the book `b`, and the prices of the two records cross. -/
def TradeFrom (b : Orderbook) (t : Trade) : Prop :=
  (∃ n ∈ b.bids.nodes, t.bid.id = n.order.id ∧ t.bid.price = n.order.price) ∧
  (∃ n ∈ b.asks.nodes, t.ask.id = n.order.id ∧ t.ask.price = n.order.price) ∧
  t.ask.price ≤ t.bid.price ∧ t.bid.qty = t.ask.qty

/-- Every node of the levels `ls` holds an order with the price of its level and with the
id and price of a node of `origin`. -/
def Levels.NodesFrom (ls : Levels) (origin : List Node) : Prop :=
  ∀ l ∈ ls, ∀ n ∈ l.2, n.order.price = l.1 ∧
    ∃ n0 ∈ origin, n0.order.id = n.order.id ∧ n0.order.price = n.order.price

/-! ### The insertion step and the bijection -/

/-- The book after the insertion step of `AddOrder` (lines 184 to 194): the order is
pushed to the back of the queue at its side and price, in a new node, and the registry
maps its id to that node. -/
def Orderbook.insert (b : Orderbook) (order : Order) : Orderbook :=
  match order.side with
  | .Buy =>
    { b with
      bids := b.bids.pushBack .Buy order.price { addr := b.freshAddr, order := order },
      orders := b.orders.assign order.id
        { type := order.type, side := order.side, price := order.price,
          location := b.freshAddr } }
  | .Sell =>
    { b with
      asks := b.asks.pushBack .Sell order.price { addr := b.freshAddr, order := order },
      orders := b.orders.assign order.id
        { type := order.type, side := order.side, price := order.price,
          location := b.freshAddr } }

/-- The registry and the queues hold the same orders, one to one: every registered id is
the id of exactly one queue entry of the book (so on exactly one side), and the id of
every queue entry is registered. -/
def Orderbook.Bijection (b : Orderbook) : Prop :=
  (b.orders.map Prod.fst).Nodup ∧
  (∀ kv ∈ b.orders,
    ((b.bids.nodes ++ b.asks.nodes).filter (fun n => decide (n.order.id = kv.1))).length = 1) ∧
  (∀ n ∈ b.bids.nodes ++ b.asks.nodes, b.orders.find n.order.id ≠ none)

instance (b : Orderbook) : Decidable b.Bijection := by
  unfold Orderbook.Bijection; infer_instance

/-! ### Concrete books -/

/-- A book holding one resting buy order: GoodTillCancel, id 1, price 100, quantity 10. -/
def bookOneBid : Orderbook :=
  { bids := [(100, [{ addr := 1, order := Order.new .GoodTillCancel 1 .Buy 100 10 }])],
    asks := [],
    orders := [(1, { type := .GoodTillCancel, side := .Buy, price := 100, location := 1 })] }

/-- The book of the modify scenario: buy GoodTillCancel id 4 at price 10 with quantity 5,
and buy GoodTillCancel id 5 at price 20 with quantity 1. -/
def bookModifyScenario : Orderbook :=
  { bids := [(20, [{ addr := 2, order := Order.new .GoodTillCancel 5 .Buy 20 1 }]),
             (10, [{ addr := 1, order := Order.new .GoodTillCancel 4 .Buy 10 5 }])],
    asks := [],
    orders := [(4, { type := .GoodTillCancel, side := .Buy, price := 10, location := 1 }),
               (5, { type := .GoodTillCancel, side := .Buy, price := 20, location := 2 })] }

/-- A crossed book: buys id 1 and id 2 at price 100 with quantity 5 each, in this order of
arrival, and a sell id 3 at price 90 with quantity 7. -/
def bookCrossed : Orderbook :=
  { bids := [(100, [{ addr := 1, order := Order.new .GoodTillCancel 1 .Buy 100 5 },
                    { addr := 2, order := Order.new .GoodTillCancel 2 .Buy 100 5 }])],
    asks := [(90, [{ addr := 3, order := Order.new .GoodTillCancel 3 .Sell 90 7 }])],
    orders := [(1, { type := .GoodTillCancel, side := .Buy, price := 100, location := 1 }),
               (2, { type := .GoodTillCancel, side := .Buy, price := 100, location := 2 }),
               (3, { type := .GoodTillCancel, side := .Sell, price := 90, location := 3 })] }

/-- A crossed book in which every order has remaining quantity 0. -/
def bookZeroQty : Orderbook :=
  { bids := [(100, [{ addr := 1, order := Order.new .GoodTillCancel 1 .Buy 100 0 },
                    { addr := 2, order := Order.new .GoodTillCancel 2 .Buy 100 0 }])],
    asks := [(90, [{ addr := 3, order := Order.new .GoodTillCancel 3 .Sell 90 0 }])],
    orders := [(1, { type := .GoodTillCancel, side := .Buy, price := 100, location := 1 }),
               (2, { type := .GoodTillCancel, side := .Buy, price := 100, location := 2 }),
               (3, { type := .GoodTillCancel, side := .Sell, price := 90, location := 3 })] }

/-! ### Sequences of calls -/

/-- A call of one of the three public operations that change the book. -/
inductive Call where
  | AddOrder (order : Order)
  | CancelOrder (id : OrderId)
  | ModifyOrder (mod : OrderModify)

/-- One call on the book `b`: the trade list it returns (`CancelOrder` returns nothing)
and the book it leaves. -/
def Orderbook.call (b : Orderbook) (c : Call) : Except Error (Option Trades × Orderbook) :=
  match c with
  | .AddOrder order =>
    match b.AddOrder order with
    | .error e => .error e
    | .ok r => .ok (some r.1, r.2)
  | .CancelOrder id =>
    match b.CancelOrder id with
    | .error e => .error e
    | .ok b1 => .ok (none, b1)
  | .ModifyOrder mod =>
    match b.ModifyOrder mod with
    | .error e => .error e
    | .ok r => .ok (some r.1, r.2)

/-- A sequence of calls, one after the other: what each call returned and the book it
left. -/
def Orderbook.run (b : Orderbook) (calls : List Call) :
    Except Error (List (Option Trades × Orderbook)) :=
  match calls with
  | [] => .ok []
  | c :: rest =>
    match b.call c with
    | .error e => .error e
    | .ok r =>
      match r.2.run rest with
      | .error e => .error e
      | .ok rs => .ok (r :: rs)

/-- What a call returns when it makes no trade: an empty trade list, or nothing for
`CancelOrder`. -/
def Call.noTrades (c : Call) : Option Trades :=
  match c with
  | .CancelOrder _ => none
  | _ => some []

/-- The books the program can be in: `bids`, `asks` and `orders` are private, so a book
is the default-constructed one or what a call of a public operation leaves of such a
book.  (A call that ends in an exception of `CancelOrder` has not changed the book.) -/
inductive Orderbook.Reachable : Orderbook → Prop where
  | empty : Orderbook.Reachable Orderbook.empty
  | call (b : Orderbook) (c : Call) (r : Option Trades × Orderbook) :
      Orderbook.Reachable b → b.call c = .ok r → Orderbook.Reachable r.2

/-! ## Theorems -/

/-! ### The registry and `CancelOrder` -/

theorem Registry.find_erase_self (r : Registry) (id : OrderId) :
    (r.erase id).find id = none := by
  induction r with
  | nil => rfl
  | cons kv rest ih =>
    obtain ⟨k, e⟩ := kv
    by_cases h : k = id
    · simpa [Registry.erase, h] using ih
    · simpa [Registry.erase, Registry.find, h] using ih

theorem Registry.find_erase_ne (r : Registry) {id j : OrderId} (h : j ≠ id) :
    (r.erase id).find j = r.find j := by
  induction r with
  | nil => rfl
  | cons kv rest ih =>
    obtain ⟨k, e⟩ := kv
    by_cases hk : k = id
    · subst hk
      have hkj : ¬ k = j := fun hj => h hj.symm
      simpa [Registry.erase, Registry.find, hkj] using ih
    · by_cases hkj : k = j
      · subst hkj
        simp [Registry.erase, Registry.find, hk]
      · simpa [Registry.erase, Registry.find, hk, hkj] using ih

theorem Registry.mem_of_find {r : Registry} {id : OrderId} {e : OrderEntry}
    (h : r.find id = some e) : (id, e) ∈ r := by
  induction r with
  | nil => simp [Registry.find] at h
  | cons kv rest ih =>
    obtain ⟨k, e1⟩ := kv
    by_cases hk : k = id
    · simp [Registry.find, hk] at h
      simp [hk, h]
    · simp [Registry.find, hk] at h
      exact List.mem_cons_of_mem _ (ih h)

theorem Levels.find_of_mem_queue {ls : Levels} {p : Price} {n : Node}
    (h : n ∈ ls.queue p) : ∃ list, ls.find p = some list ∧ n ∈ list := by
  unfold Levels.queue at h
  cases hf : ls.find p with
  | none => simp [hf] at h
  | some list => exact ⟨list, rfl, by simpa [hf] using h⟩

theorem eraseNode_isSome {list : OrderPointers} {loc : Nat}
    (h : ∃ n ∈ list, n.addr = loc) : ∃ list1, eraseNode list loc = some list1 := by
  induction list with
  | nil => simp at h
  | cons m rest ih =>
    by_cases hm : m.addr = loc
    · exact ⟨rest, by simp [eraseNode, hm]⟩
    · have : ∃ n ∈ rest, n.addr = loc := by
        obtain ⟨n, hn, hna⟩ := h
        rcases List.mem_cons.1 hn with rfl | hn
        · exact absurd hna hm
        · exact ⟨n, hn, hna⟩
      obtain ⟨l1, hl1⟩ := ih this
      exact ⟨m :: l1, by simp [eraseNode, hm, hl1]⟩

theorem cancelInLevels_ok {ls : Levels} {p : Price} {loc : Nat}
    (h : ∃ n ∈ ls.queue p, n.addr = loc) : ∃ ls1, cancelInLevels ls p loc = .ok ls1 := by
  obtain ⟨n, hn, hna⟩ := h
  obtain ⟨list, hf, hnl⟩ := Levels.find_of_mem_queue hn
  obtain ⟨l1, hl1⟩ := eraseNode_isSome ⟨n, hnl, hna⟩
  unfold cancelInLevels
  simp only [hf, hl1]
  split <;> exact ⟨_, rfl⟩

theorem CancelOrder_ok_of_located {b : Orderbook} (hloc : b.EntriesLocated) (id : OrderId) :
    ∃ b1, b.CancelOrder id = .ok b1 ∧ b1.orders.find id = none := by
  unfold Orderbook.CancelOrder
  cases hf : b.orders.find id with
  | none => exact ⟨b, rfl, hf⟩
  | some entry =>
    obtain ⟨n, hn, hna, -⟩ := hloc _ (Registry.mem_of_find hf)
    obtain ⟨ls1, hls1⟩ := cancelInLevels_ok ⟨n, hn, hna⟩
    cases hs : entry.side with
    | Buy =>
      simp only [hs, Orderbook.levels] at hls1
      simp only [hs, hls1]
      exact ⟨_, rfl, Registry.find_erase_self _ _⟩
    | Sell =>
      simp only [hs, Orderbook.levels] at hls1
      simp only [hs, hls1]
      exact ⟨_, rfl, Registry.find_erase_self _ _⟩

theorem CancelOrder_absent {b : Orderbook} {id : OrderId} (h : b.orders.find id = none) :
    b.CancelOrder id = .ok b := by
  unfold Orderbook.CancelOrder
  simp [h]

/-! ### The result of `CancelOrder` on a well-formed book -/

theorem Levels.Sorted.head_before {s : Side} {l : Price × OrderPointers} {rest : Levels}
    (h : Levels.Sorted s (l :: rest)) {m : Price × OrderPointers} (hm : m ∈ l :: rest) :
    m.1 = l.1 ∨ s.before l.1 m.1 = true := by
  unfold Levels.Sorted at h
  simp only [List.map_cons, List.pairwise_cons] at h
  rcases List.mem_cons.1 hm with rfl | hm
  · exact Or.inl rfl
  · exact Or.inr (h.1 _ (List.mem_map_of_mem _ hm))

theorem Levels.Sorted.of_cons {s : Side} {l : Price × OrderPointers} {rest : Levels}
    (h : Levels.Sorted s (l :: rest)) : Levels.Sorted s rest := by
  unfold Levels.Sorted at h ⊢
  simp only [List.map_cons, List.pairwise_cons] at h
  exact h.2

theorem eraseNode_eq_filter (f : Node → Bool) (loc : Nat) (list : OrderPointers)
    (hnd : (list.map Node.addr).Nodup) (hf : ∀ m ∈ list, f m = false ↔ m.addr = loc)
    (hex : ∃ n ∈ list, n.addr = loc) : eraseNode list loc = some (list.filter f) := by
  induction list with
  | nil => simp at hex
  | cons m rest ih =>
    simp only [List.map_cons, List.nodup_cons, List.mem_map, not_exists, not_and] at hnd
    by_cases hm : m.addr = loc
    · have hfm : f m = false := (hf m (List.mem_cons_self _ _)).2 hm
      have hrest : rest.filter f = rest := by
        apply List.filter_eq_self.2
        intro k hk
        by_contra hfk
        have hk2 : k.addr = loc := (hf k (List.mem_cons_of_mem _ hk)).1 (by simpa using hfk)
        exact hnd.1 k hk (hk2.trans hm.symm)
      simp [eraseNode, hm, hfm, hrest]
    · have hfm : f m = true := by
        by_contra h
        exact hm ((hf m (List.mem_cons_self _ _)).1 (by simpa using h))
      have hex2 : ∃ n ∈ rest, n.addr = loc := by
        obtain ⟨n, hn, hna⟩ := hex
        rcases List.mem_cons.1 hn with rfl | hn
        · exact absurd hna hm
        · exact ⟨n, hn, hna⟩
      have := ih hnd.2 (fun k hk => hf k (List.mem_cons_of_mem _ hk)) hex2
      simp [eraseNode, hm, hfm, this]

theorem Levels.find_mem {ls : Levels} {p : Price} {q : OrderPointers}
    (h : ls.find p = some q) : (p, q) ∈ ls := by
  induction ls with
  | nil => simp [Levels.find] at h
  | cons l rest ih =>
    obtain ⟨k, c⟩ := l
    by_cases hk : k = p
    · simp [Levels.find, hk] at h
      simp [hk, h]
    · simp [Levels.find, hk] at h
      exact List.mem_cons_of_mem _ (ih h)

theorem Levels.Sorted.find_of_mem {s : Side} {ls : Levels} (h : Levels.Sorted s ls)
    {l : Price × OrderPointers} (hl : l ∈ ls) : ls.find l.1 = some l.2 := by
  induction ls with
  | nil => simp at hl
  | cons m rest ih =>
    unfold Levels.Sorted at h ih
    simp only [List.map_cons, List.pairwise_cons] at h
    obtain ⟨k, c⟩ := m
    rcases List.mem_cons.1 hl with rfl | hl
    · simp [Levels.find]
    · have hb := h.1 l.1 (List.mem_map_of_mem _ hl)
      have hne : ¬ k = l.1 := by
        intro hkl
        rw [hkl] at hb
        cases s <;> simp [Side.before] at hb
      simp only [Levels.find, hne, if_false]
      exact ih h.2 hl

theorem Levels.Sorted.not_mem_tail {s : Side} {k : Price} {c : OrderPointers} {rest : Levels}
    (h : Levels.Sorted s ((k, c) :: rest)) : ∀ l ∈ rest, l.1 ≠ k := by
  intro l hl hlk
  unfold Levels.Sorted at h
  simp only [List.map_cons, List.pairwise_cons] at h
  have hb := h.1 l.1 (List.mem_map_of_mem _ hl)
  rw [hlk] at hb
  cases s <;> simp [Side.before] at hb

theorem Levels.without_eq_self (id : OrderId) (ls : Levels)
    (h : ∀ l ∈ ls, (∀ n ∈ l.2, n.order.id ≠ id) ∧ l.2 ≠ []) : ls.without id = ls := by
  induction ls with
  | nil => rfl
  | cons l rest ih =>
    have hl := h l (List.mem_cons_self _ _)
    have hq : l.2.filter (fun n => decide (n.order.id ≠ id)) = l.2 :=
      List.filter_eq_self.2 (fun n hn => by simpa using hl.1 n hn)
    have ih2 := ih (fun m hm => h m (List.mem_cons_of_mem _ hm))
    unfold Levels.without at ih2 ⊢
    simp only [List.map_cons, hq]
    rw [List.filter_cons_of_pos (by simpa using hl.2), ih2]

theorem Levels.erase_eq_self (p : Price) (ls : Levels) (h : ∀ l ∈ ls, l.1 ≠ p) :
    ls.erase p = ls :=
  List.filter_eq_self.2 (fun l hl => by simpa using h l hl)

theorem Levels.set_eq_self (p : Price) (q : OrderPointers) (ls : Levels)
    (h : ∀ l ∈ ls, l.1 ≠ p) : ls.set p q = ls := by
  unfold Levels.set
  conv_rhs => rw [← List.map_id ls]
  apply List.map_congr_left
  intro l hl
  simp [h l hl]

theorem Levels.without_cons (id : OrderId) (k : Price) (c : OrderPointers) (rest : Levels) :
    Levels.without ((k, c) :: rest) id =
      if c.filter (fun n => decide (n.order.id ≠ id)) = [] then rest.without id
      else (k, c.filter (fun n => decide (n.order.id ≠ id))) :: rest.without id := by
  unfold Levels.without
  by_cases h : c.filter (fun n => decide (n.order.id ≠ id)) = []
  · simp only [List.map_cons, h, if_true]
    rw [List.filter_cons_of_neg (by simp)]
  · simp only [List.map_cons, h, if_false]
    rw [List.filter_cons_of_pos (by simpa using h)]

theorem Levels.erase_cons (p k : Price) (c : OrderPointers) (rest : Levels) :
    Levels.erase ((k, c) :: rest) p = if k = p then rest.erase p else (k, c) :: rest.erase p := by
  unfold Levels.erase
  by_cases h : k = p
  · simp only [h, if_true]
    rw [List.filter_cons_of_neg (by simp)]
  · simp only [h, if_false]
    rw [List.filter_cons_of_pos (by simpa using h)]

theorem Levels.set_cons (p k : Price) (c q : OrderPointers) (rest : Levels) :
    Levels.set ((k, c) :: rest) p q =
      (if k = p then (k, q) else (k, c)) :: rest.set p q := by
  simp [Levels.set]

/-- On a map in comparator order without empty queues, in which only the queue at `p`
holds orders of id `id`: emptying the level at `p` of them, and erasing it when nothing
is left, gives `without`. -/
theorem Levels.cancel_eq_without (s : Side) (id : OrderId) (p : Price) (ls : Levels)
    (list : OrderPointers) (hs : Levels.Sorted s ls) (hne : ls.NoEmpty)
    (hfind : ls.find p = some list)
    (hother : ∀ l ∈ ls, l.1 ≠ p → ∀ n ∈ l.2, n.order.id ≠ id) :
    (if (list.filter (fun n => decide (n.order.id ≠ id))).isEmpty then ls.erase p
     else ls.set p (list.filter (fun n => decide (n.order.id ≠ id)))) = ls.without id := by
  induction ls with
  | nil => simp [Levels.find] at hfind
  | cons l rest ih =>
    obtain ⟨k, c⟩ := l
    have hrestNe : Levels.NoEmpty rest := fun m hm => hne m (List.mem_cons_of_mem _ hm)
    rw [Levels.without_cons, Levels.erase_cons, Levels.set_cons]
    by_cases hk : k = p
    · subst hk
      have hc : c = list := by simpa [Levels.find] using hfind
      subst hc
      have hkeys := hs.not_mem_tail
      rw [Levels.without_eq_self id rest (fun m hm =>
          ⟨hother m (List.mem_cons_of_mem _ hm) (hkeys m hm), hrestNe m hm⟩),
        Levels.erase_eq_self k rest hkeys, Levels.set_eq_self k _ rest hkeys]
      simp only [List.isEmpty_iff, if_true]
    · have hfind2 : Levels.find rest p = some list := by
        simpa [Levels.find, hk] using hfind
      have ih2 := ih hs.of_cons hrestNe hfind2 (fun m hm => hother m (List.mem_cons_of_mem _ hm))
      have hcq : c.filter (fun n => decide (n.order.id ≠ id)) = c :=
        List.filter_eq_self.2 (fun n hn => by
          simpa using hother (k, c) (List.mem_cons_self _ _) hk n hn)
      have hcne : c ≠ [] := hne (k, c) (List.mem_cons_self _ _)
      rw [← ih2]
      simp only [hk, if_false, hcq, hcne]
      split <;> rfl

theorem Levels.nodes_without (id : OrderId) (ls : Levels) :
    (ls.without id).nodes = ls.nodes.filter (fun n => decide (n.order.id ≠ id)) := by
  induction ls with
  | nil => rfl
  | cons l rest ih =>
    obtain ⟨k, c⟩ := l
    rw [Levels.without_cons]
    by_cases h : c.filter (fun n => decide (n.order.id ≠ id)) = []
    · simp only [h, if_true, Levels.nodes, List.filter_append, List.nil_append, ih]
    · simp only [h, if_false, Levels.nodes, List.filter_append, ih]

theorem Levels.mem_without {id : OrderId} {ls : Levels} {l : Price × OrderPointers}
    (h : l ∈ ls.without id) : l.2 ≠ [] ∧ ∃ c, (l.1, c) ∈ ls := by
  unfold Levels.without at h
  simp only [List.mem_filter, List.mem_map, decide_eq_true_eq] at h
  obtain ⟨⟨m, hm, rfl⟩, hne⟩ := h
  exact ⟨hne, m.2, hm⟩

theorem Levels.find_eq_none {p : Price} {ls : Levels} (h : ∀ l ∈ ls, l.1 ≠ p) :
    ls.find p = none := by
  induction ls with
  | nil => rfl
  | cons l rest ih =>
    obtain ⟨k, c⟩ := l
    have hk : ¬ k = p := h (k, c) (List.mem_cons_self _ _)
    simp only [Levels.find, hk, if_false]
    exact ih (fun m hm => h m (List.mem_cons_of_mem _ hm))

theorem Levels.queue_without (s : Side) (id : OrderId) (p : Price) (ls : Levels)
    (hs : Levels.Sorted s ls) :
    (ls.without id).queue p = (ls.queue p).filter (fun n => decide (n.order.id ≠ id)) := by
  induction ls with
  | nil => rfl
  | cons l rest ih =>
    obtain ⟨k, c⟩ := l
    have ih2 := ih hs.of_cons
    rw [Levels.without_cons]
    by_cases hk : k = p
    · subst hk
      have hnone : (Levels.without rest id).find k = none :=
        Levels.find_eq_none (fun m hm => by
          obtain ⟨-, c2, hc2⟩ := Levels.mem_without hm
          exact hs.not_mem_tail (m.1, c2) hc2)
      by_cases h : c.filter (fun n => decide (n.order.id ≠ id)) = []
      · rw [if_pos h]
        simp only [Levels.queue, hnone, Levels.find, if_true, Option.getD_none,
          Option.getD_some, h]
      · rw [if_neg h]
        simp only [Levels.queue, Levels.find, if_true, Option.getD_some]
    · unfold Levels.queue at ih2 ⊢
      by_cases h : c.filter (fun n => decide (n.order.id ≠ id)) = []
      · rw [if_pos h]
        simpa only [Levels.find, hk, if_false] using ih2
      · rw [if_neg h]
        simpa only [Levels.find, hk, if_false] using ih2

theorem Levels.find_without_eq_none_iff (s : Side) (id : OrderId) (p : Price) (ls : Levels)
    (hs : Levels.Sorted s ls) :
    (ls.without id).find p = none ↔
      (ls.queue p).filter (fun n => decide (n.order.id ≠ id)) = [] := by
  rw [← Levels.queue_without s id p ls hs]
  unfold Levels.queue
  cases hf : (ls.without id).find p with
  | none => simp
  | some q =>
    have := (Levels.mem_without (Levels.find_mem hf)).1
    simpa using this

theorem Orderbook.WellFormed.nodes {b : Orderbook} (hwf : b.WellFormed) (s : Side) :
    b.NodesRegistered s := by
  cases s
  · exact hwf.2.2.2.2.2.1
  · exact hwf.2.2.2.2.2.2.1

theorem Orderbook.WellFormed.sorted {b : Orderbook} (hwf : b.WellFormed) (s : Side) :
    Levels.Sorted s (b.levels s) := by
  cases s
  · exact hwf.1.1
  · exact hwf.1.2

theorem Orderbook.WellFormed.noEmpty {b : Orderbook} (hwf : b.WellFormed) (s : Side) :
    (b.levels s).NoEmpty := by
  cases s
  · exact hwf.2.1
  · exact hwf.2.2.1

theorem Levels.mem_nodes {ls : Levels} {n : Node} :
    n ∈ ls.nodes ↔ ∃ l ∈ ls, n ∈ l.2 := by
  induction ls with
  | nil => simp [Levels.nodes]
  | cons l rest ih =>
    obtain ⟨k, c⟩ := l
    simp only [Levels.nodes, List.mem_append, ih, List.mem_cons, exists_eq_or_imp]

/-- In a well-formed book every node that holds an order of a registered id is the node
that the registry entry of the id designates. -/
theorem Orderbook.WellFormed.node_of_id {b : Orderbook} (hwf : b.WellFormed) {id : OrderId}
    {e : OrderEntry} (hfind : b.orders.find id = some e) {s : Side}
    {l : Price × OrderPointers} (hl : l ∈ b.levels s) {m : Node} (hm : m ∈ l.2)
    (hid : m.order.id = id) : s = e.side ∧ l.1 = e.price ∧ m.addr = e.location := by
  have h := (hwf.nodes s l hl m hm).2.2
  rw [hid, hfind] at h
  cases h
  exact ⟨rfl, rfl, rfl⟩

theorem Orderbook.mem_allNodes {b : Orderbook} {n : Node} :
    n ∈ b.bids.nodes ++ b.asks.nodes ↔ ∃ s, ∃ l ∈ b.levels s, n ∈ l.2 := by
  simp only [List.mem_append, Levels.mem_nodes]
  constructor
  · rintro (h | h)
    · exact ⟨.Buy, h⟩
    · exact ⟨.Sell, h⟩
  · rintro ⟨s, h⟩
    cases s
    · exact Or.inl h
    · exact Or.inr h

theorem Levels.sublist_nodes {ls : Levels} {l : Price × OrderPointers} (hl : l ∈ ls) :
    l.2.Sublist ls.nodes := by
  induction ls with
  | nil => simp at hl
  | cons m rest ih =>
    obtain ⟨k, c⟩ := m
    rcases List.mem_cons.1 hl with rfl | hl
    · exact List.sublist_append_left _ _
    · exact (ih hl).trans (List.sublist_append_right _ _)

theorem Orderbook.sublist_allNodes (b : Orderbook) (s : Side) :
    (b.levels s).nodes.Sublist (b.bids.nodes ++ b.asks.nodes) := by
  cases s
  · exact List.sublist_append_left _ _
  · exact List.sublist_append_right _ _

theorem CancelOrder_of_cancelInLevels {b : Orderbook} {id : OrderId} {e : OrderEntry}
    {ls1 : Levels} (hfind : b.orders.find id = some e)
    (hc : cancelInLevels (b.levels e.side) e.price e.location = .ok ls1) :
    ∃ b1, b.CancelOrder id = .ok b1 ∧ b1.orders = b.orders.erase id ∧
      b1.levels e.side = ls1 ∧ ∀ s, s ≠ e.side → b1.levels s = b.levels s := by
  unfold Orderbook.CancelOrder
  simp only [hfind]
  cases hs : e.side with
  | Buy =>
    simp only [hs, Orderbook.levels] at hc
    simp only [hc]
    refine ⟨_, rfl, rfl, rfl, ?_⟩
    intro s hne
    cases s
    · exact absurd rfl hne
    · rfl
  | Sell =>
    simp only [hs, Orderbook.levels] at hc
    simp only [hc]
    refine ⟨_, rfl, rfl, rfl, ?_⟩
    intro s hne
    cases s
    · rfl
    · exact absurd rfl hne

/-- In a well-formed book the side branch of `CancelOrder` succeeds and computes
`without`. -/
theorem Orderbook.WellFormed.cancelInLevels_eq {b : Orderbook} (hwf : b.WellFormed)
    {id : OrderId} {e : OrderEntry} (hfind : b.orders.find id = some e) :
    cancelInLevels (b.levels e.side) e.price e.location =
      .ok ((b.levels e.side).without id) := by
  obtain ⟨n0, hn0, hn0a, hn0id⟩ := hwf.2.2.2.2.2.2.2 _ (Registry.mem_of_find hfind)
  simp only at hn0 hn0a hn0id
  obtain ⟨list, hlist, hn0l⟩ := Levels.find_of_mem_queue hn0
  have hmem := Levels.find_mem hlist
  have hnd : (list.map Node.addr).Nodup :=
    List.Nodup.sublist
      (((Levels.sublist_nodes hmem).trans (b.sublist_allNodes e.side)).map Node.addr)
      hwf.2.2.2.2.1
  have hf : ∀ m ∈ list, (decide (m.order.id ≠ id) = false ↔ m.addr = e.location) := by
    intro m hm
    constructor
    · intro h
      have hid : m.order.id = id := by simpa using h
      exact (hwf.node_of_id hfind hmem hm hid).2.2
    · intro h
      have hmn : m = n0 :=
        List.inj_on_of_nodup_map hnd hm hn0l (h.trans hn0a.symm)
      simp [hmn, hn0id]
  have herase := eraseNode_eq_filter (fun n => decide (n.order.id ≠ id)) e.location list hnd hf
    ⟨n0, hn0l, hn0a⟩
  have hother : ∀ l ∈ b.levels e.side, l.1 ≠ e.price → ∀ n ∈ l.2, n.order.id ≠ id := by
    intro l hl hne n hn hid
    exact hne (hwf.node_of_id hfind hl hn hid).2.1
  have hmain := Levels.cancel_eq_without e.side id e.price (b.levels e.side) list
    (hwf.sorted e.side) (hwf.noEmpty e.side) hlist hother
  unfold cancelInLevels
  simp only [hlist, herase]
  rw [← hmain]
  split <;> rfl

/-- The result of `CancelOrder` on a well-formed book, for a registered id. -/
theorem Orderbook.WellFormed.CancelOrder_eq {b : Orderbook} (hwf : b.WellFormed)
    {id : OrderId} {e : OrderEntry} (hfind : b.orders.find id = some e) :
    ∃ b1, b.CancelOrder id = .ok b1 ∧ b1.orders = b.orders.erase id ∧
      ∀ s, b1.levels s = (b.levels s).without id := by
  obtain ⟨b1, h1, h2, h3, h4⟩ := CancelOrder_of_cancelInLevels hfind (hwf.cancelInLevels_eq hfind)
  refine ⟨b1, h1, h2, ?_⟩
  intro s
  by_cases hs : s = e.side
  · rw [hs, h3]
  · rw [h4 s hs]
    symm
    apply Levels.without_eq_self
    intro l hl
    refine ⟨?_, hwf.noEmpty s l hl⟩
    intro n hn hid
    exact hs (hwf.node_of_id hfind hl hn hid).1

/-! ### The matching loop -/

theorem Order.Fill_le (o : Order) {qty : Quantity} (h : qty ≤ o.remainingQty) :
    o.Fill qty = .ok { o with remainingQty := o.remainingQty - qty } := by
  unfold Order.Fill
  simp [Nat.not_lt.2 h]

/-- The body of the inner loop never fails: its result in closed form. -/
theorem matchFront_eq (bid ask : Node) (bidRest askRest : OrderPointers) (orders : Registry)
    (trades : Trades) :
    matchFront bid ask bidRest askRest orders trades =
      .ok ((if bid.order.remainingQty ≤ ask.order.remainingQty then bidRest
            else { bid with order := { bid.order with
              remainingQty := bid.order.remainingQty - ask.order.remainingQty } } :: bidRest),
           (if ask.order.remainingQty ≤ bid.order.remainingQty then askRest
            else { ask with order := { ask.order with
              remainingQty := ask.order.remainingQty - bid.order.remainingQty } } :: askRest),
           (if ask.order.remainingQty ≤ bid.order.remainingQty then
              (if bid.order.remainingQty ≤ ask.order.remainingQty then orders.erase bid.order.id
               else orders).erase ask.order.id
            else if bid.order.remainingQty ≤ ask.order.remainingQty then
              orders.erase bid.order.id
            else orders),
           trades ++
             [{ bid := { id := bid.order.id, price := bid.order.price,
                         qty := min bid.order.remainingQty ask.order.remainingQty },
                ask := { id := ask.order.id, price := ask.order.price,
                         qty := min bid.order.remainingQty ask.order.remainingQty } }]) := by
  unfold matchFront
  simp only [Order.Fill_le _ (Nat.min_le_left _ _), Order.Fill_le _ (Nat.min_le_right _ _),
    Order.IsFilled]
  rcases Nat.lt_trichotomy bid.order.remainingQty ask.order.remainingQty with h | h | h
  · have h1 : bid.order.remainingQty ≤ ask.order.remainingQty := Nat.le_of_lt h
    have h2 : ¬ ask.order.remainingQty ≤ bid.order.remainingQty := Nat.not_le.2 h
    have h3 : ¬ ask.order.remainingQty - bid.order.remainingQty = 0 := Nat.sub_ne_zero_of_lt h
    simp [h1, h2, h3, Nat.min_eq_left h1]
  · simp [h]
  · have h1 : ask.order.remainingQty ≤ bid.order.remainingQty := Nat.le_of_lt h
    have h2 : ¬ bid.order.remainingQty ≤ ask.order.remainingQty := Nat.not_le.2 h
    have h3 : ¬ bid.order.remainingQty - ask.order.remainingQty = 0 := Nat.sub_ne_zero_of_lt h
    simp [h1, h2, h3, Nat.min_eq_right h1]

theorem matchFront_length {bid ask : Node} {bidRest askRest : OrderPointers}
    {orders : Registry} {trades : Trades}
    {r : OrderPointers × OrderPointers × Registry × Trades}
    (h : matchFront bid ask bidRest askRest orders trades = .ok r) :
    r.1.length + r.2.1.length ≤ bidRest.length + askRest.length + 1 := by
  rw [matchFront_eq] at h
  cases h
  by_cases h1 : bid.order.remainingQty ≤ ask.order.remainingQty
  · by_cases h2 : ask.order.remainingQty ≤ bid.order.remainingQty
    · simp only [h1, h2, if_true]; omega
    · simp only [h1, h2, if_true, if_false, List.length_cons]; omega
  · have h2 : ask.order.remainingQty ≤ bid.order.remainingQty := Nat.le_of_lt (Nat.not_le.1 h1)
    simp only [h1, h2, if_true, if_false, List.length_cons]; omega

/-- Invariant rule for the inner loop: with fuel for every node of the two queues the loop
finishes, in a state where one queue is empty, and every property kept by its body holds
at the end. -/
theorem matchLevel_rule (I : OrderPointers → OrderPointers → Registry → Trades → Prop)
    (hstep : ∀ bid bidRest ask askRest orders trades r,
      I (bid :: bidRest) (ask :: askRest) orders trades →
      matchFront bid ask bidRest askRest orders trades = .ok r →
      I r.1 r.2.1 r.2.2.1 r.2.2.2)
    (fuel : Nat) (bidList askList : OrderPointers) (orders : Registry) (trades : Trades)
    (hfuel : bidList.length + askList.length ≤ fuel) (h0 : I bidList askList orders trades) :
    ∃ r, matchLevel fuel bidList askList orders trades = .ok r ∧
      I r.1 r.2.1 r.2.2.1 r.2.2.2 ∧ (r.1 = [] ∨ r.2.1 = []) := by
  induction fuel generalizing bidList askList orders trades with
  | zero =>
    cases bidList with
    | nil => exact ⟨([], askList, orders, trades), by simp [matchLevel], h0, Or.inl rfl⟩
    | cons bid bidRest => simp at hfuel
  | succ fuel ih =>
    cases bidList with
    | nil => exact ⟨([], askList, orders, trades), by simp [matchLevel], h0, Or.inl rfl⟩
    | cons bid bidRest =>
      cases askList with
      | nil => exact ⟨(bid :: bidRest, [], orders, trades), by simp [matchLevel], h0, Or.inr rfl⟩
      | cons ask askRest =>
        obtain ⟨r, hr⟩ : ∃ r, matchFront bid ask bidRest askRest orders trades = .ok r :=
          ⟨_, matchFront_eq bid ask bidRest askRest orders trades⟩
        have hlen := matchFront_length hr
        have hI := hstep _ _ _ _ _ _ r h0 hr
        obtain ⟨bl, al, o, t⟩ := r
        simp only [List.length_cons] at hfuel
        obtain ⟨r2, h2, hI2, hE⟩ := ih bl al o t (by simp only at hlen; omega) hI
        exact ⟨r2, by simp only [matchLevel, hr, h2], hI2, hE⟩

/-- Invariant rule for the outer loop: with fuel for every level of the two maps the loop
finishes, in a state where a side has no level or the front prices do not cross, and
every property kept by the body of the inner loop and by the removal of an empty front
level holds at the end. -/
theorem matchLoop_rule (J : Levels → Levels → Registry → Trades → Prop)
    (hfront : ∀ bidPrice bid bidRest bidsRest askPrice ask askRest asksRest orders trades r,
      ¬ bidPrice < askPrice →
      J ((bidPrice, bid :: bidRest) :: bidsRest) ((askPrice, ask :: askRest) :: asksRest)
        orders trades →
      matchFront bid ask bidRest askRest orders trades = .ok r →
      J ((bidPrice, r.1) :: bidsRest) ((askPrice, r.2.1) :: asksRest) r.2.2.1 r.2.2.2)
    (hbid : ∀ bidPrice bidsRest asks orders trades,
      J ((bidPrice, []) :: bidsRest) asks orders trades → J bidsRest asks orders trades)
    (hask : ∀ askPrice bids asksRest orders trades,
      J bids ((askPrice, []) :: asksRest) orders trades → J bids asksRest orders trades)
    (fuel : Nat) (bids asks : Levels) (orders : Registry) (trades : Trades)
    (hfuel : bids.length + asks.length ≤ fuel) (h0 : J bids asks orders trades) :
    ∃ trades1 b1, matchLoop fuel bids asks orders trades = .ok (trades1, b1) ∧
      J b1.bids b1.asks b1.orders trades1 ∧
      (∀ bl al, b1.bids.head? = some bl → b1.asks.head? = some al → bl.1 < al.1) := by
  induction fuel generalizing bids asks orders trades with
  | zero =>
    cases bids with
    | nil => exact ⟨trades, ⟨[], asks, orders⟩, by simp [matchLoop], h0, by simp⟩
    | cons bl bidsRest => simp at hfuel
  | succ fuel ih =>
    cases bids with
    | nil => exact ⟨trades, ⟨[], asks, orders⟩, by simp [matchLoop], h0, by simp⟩
    | cons bl bidsRest =>
      cases asks with
      | nil => exact ⟨trades, ⟨bl :: bidsRest, [], orders⟩, by simp [matchLoop], h0, by simp⟩
      | cons al asksRest =>
        obtain ⟨bidPrice, bidList⟩ := bl
        obtain ⟨askPrice, askList⟩ := al
        by_cases hlt : bidPrice < askPrice
        · refine ⟨trades, ⟨(bidPrice, bidList) :: bidsRest, (askPrice, askList) :: asksRest,
            orders⟩, by simp [matchLoop, hlt], h0, ?_⟩
          intro bl al hb ha
          simp only [List.head?_cons, Option.some.injEq] at hb ha
          subst hb; subst ha; exact hlt
        · obtain ⟨r, hr, hI, hE⟩ := matchLevel_rule
            (fun bl al o t => J ((bidPrice, bl) :: bidsRest) ((askPrice, al) :: asksRest) o t)
            (fun bid bidRest ask askRest o t r hJ hfr =>
              hfront bidPrice bid bidRest bidsRest askPrice ask askRest asksRest o t r hlt hJ hfr)
            (bidList.length + askList.length) bidList askList orders trades (le_refl _) h0
          obtain ⟨bl1, al1, o1, t1⟩ := r
          simp only at hI hE
          have hJ1 : J (if bl1.isEmpty then bidsRest else (bidPrice, bl1) :: bidsRest)
              (if al1.isEmpty then asksRest else (askPrice, al1) :: asksRest) o1 t1 := by
            cases bl1 with
            | nil =>
              cases al1 with
              | nil => exact hask _ _ _ _ _ (hbid _ _ _ _ _ hI)
              | cons a as => exact hbid _ _ _ _ _ hI
            | cons b bs =>
              cases al1 with
              | nil => exact hask _ _ _ _ _ hI
              | cons a as => exact hI
          have hlen : (if bl1.isEmpty then bidsRest else (bidPrice, bl1) :: bidsRest).length +
              (if al1.isEmpty then asksRest else (askPrice, al1) :: asksRest).length ≤ fuel := by
            simp only [List.length_cons] at hfuel
            rcases hE with h | h
            · subst h
              by_cases ha : al1.isEmpty <;> simp [ha] <;> omega
            · subst h
              by_cases hb : bl1.isEmpty <;> simp [hb] <;> omega
          obtain ⟨t2, b2, h2, hJ2, hX⟩ := ih _ _ o1 t1 hlen hJ1
          exact ⟨t2, b2, by simp only [matchLoop, hlt, if_false, hr, h2], hJ2, hX⟩


theorem Side.before_trans (s : Side) {p q r : Price} (h1 : s.before p q = true)
    (h2 : s.before q r = true) : s.before p r = true := by
  cases s <;> simp only [Side.before, decide_eq_true_eq] at *
  · exact lt_trans h2 h1
  · exact lt_trans h1 h2

theorem Side.before_total (s : Side) {p q : Price} (h1 : ¬ p = q)
    (h2 : ¬ s.before q p = true) : s.before p q = true := by
  cases s <;> simp only [Side.before, decide_eq_true_eq, not_lt] at *
  · exact lt_of_le_of_ne h2 (Ne.symm h1)
  · exact lt_of_le_of_ne h2 h1

theorem Levels.mem_keys_pushBack (s : Side) (ls : Levels) (price : Price) (n : Node)
    {k : Price} (h : k ∈ (ls.pushBack s price n).map Prod.fst) :
    k = price ∨ k ∈ ls.map Prod.fst := by
  induction ls with
  | nil => simpa [Levels.pushBack] using h
  | cons l rest ih =>
    obtain ⟨p, q⟩ := l
    unfold Levels.pushBack at h
    split at h
    · right; simpa using h
    · split at h
      · simp only [List.map_cons, List.mem_cons] at h ⊢
        tauto
      · simp only [List.map_cons, List.mem_cons] at h ⊢
        rcases h with h | h
        · tauto
        · rcases ih h with h | h <;> tauto

theorem Levels.pushBack_sorted (s : Side) (ls : Levels) (price : Price) (n : Node)
    (h : Levels.Sorted s ls) : Levels.Sorted s (ls.pushBack s price n) := by
  induction ls with
  | nil => simp [Levels.pushBack, Levels.Sorted]
  | cons l rest ih =>
    obtain ⟨p, q⟩ := l
    unfold Levels.Sorted at h ih ⊢
    simp only [List.map_cons, List.pairwise_cons] at h
    unfold Levels.pushBack
    split
    · simpa using h
    · rename_i hne
      split
      · rename_i hb
        simp only [List.map_cons, List.pairwise_cons, List.mem_cons]
        refine ⟨?_, h⟩
        rintro k (rfl | hk)
        · exact hb
        · exact s.before_trans hb (h.1 k hk)
      · rename_i hb
        simp only [List.map_cons, List.pairwise_cons]
        refine ⟨?_, ih h.2⟩
        intro k hk
        rcases Levels.mem_keys_pushBack s rest price n hk with rfl | hk
        · exact s.before_total hne hb
        · exact h.1 k hk


/-- The matching loop finishes on every book whose maps are ordered, and leaves the maps
ordered and the book not crossed. -/
theorem MatchOrders_notCrossed (b : Orderbook) (hs : b.MapsSorted) :
    ∃ trades b1, b.MatchOrders = .ok (trades, b1) ∧ b1.MapsSorted ∧ b1.NotCrossed := by
  obtain ⟨trades, b1, h1, hJ, hX⟩ := matchLoop_rule
    (fun bids asks _ _ => Levels.Sorted .Buy bids ∧ Levels.Sorted .Sell asks)
    (fun _ _ _ _ _ _ _ _ _ _ _ _ hJ _ => by
      simpa only [Levels.Sorted, List.map_cons] using hJ)
    (fun _ _ _ _ _ hJ => ⟨hJ.1.of_cons, hJ.2⟩)
    (fun _ _ _ _ _ hJ => ⟨hJ.1, hJ.2.of_cons⟩)
    (b.bids.length + b.asks.length) b.bids b.asks b.orders [] (le_refl _) hs
  refine ⟨trades, b1, h1, hJ, ?_⟩
  unfold Orderbook.NotCrossed
  cases hb : b1.bids with
  | nil => exact Or.inl rfl
  | cons bl bidsRest =>
    cases ha : b1.asks with
    | nil => exact Or.inr (Or.inl rfl)
    | cons al asksRest =>
      refine Or.inr (Or.inr ?_)
      have hlt : bl.1 < al.1 := hX bl al (by simp [hb]) (by simp [ha])
      intro m hm k hk
      have h1 : m.1 ≤ bl.1 := by
        rcases (hb ▸ hJ.1).head_before hm with h | h
        · exact le_of_eq h
        · simp only [Side.before, decide_eq_true_eq] at h
          exact le_of_lt h
      have h2 : al.1 ≤ k.1 := by
        rcases (ha ▸ hJ.2).head_before hk with h | h
        · exact le_of_eq h.symm
        · simp only [Side.before, decide_eq_true_eq] at h
          exact le_of_lt h
      exact lt_of_le_of_lt h1 (lt_of_lt_of_le hlt h2)

theorem Residual.refl (l : List Node) : Residual l l := ⟨0, Or.inl rfl⟩

theorem Residual.drop_front {l : List Node} {x : Node} {t : List Node}
    (h : Residual l (x :: t)) : Residual l t := by
  obtain ⟨k, h | ⟨n, rest, r, hd, -, h⟩⟩ := h
  · refine ⟨k + 1, Or.inl ?_⟩
    rw [← List.drop_drop, ← h]
    rfl
  · refine ⟨k + 1, Or.inl ?_⟩
    rw [← List.drop_drop, hd]
    cases h
    rfl

theorem Residual.reduce {l : List Node} {x : Node} {t : List Node}
    (h : Residual l (x :: t)) {r : Quantity} (hr : r ≤ x.order.remainingQty) :
    Residual l (x.withRemaining r :: t) := by
  obtain ⟨k, h | ⟨n, rest, r0, hd, hr0, h⟩⟩ := h
  · exact ⟨k, Or.inr ⟨x, t, r, h.symm, hr, rfl⟩⟩
  · injection h with h1 h2
    subst h1 h2
    exact ⟨k, Or.inr ⟨n, t, r, hd, le_trans hr hr0, rfl⟩⟩

theorem Levels.nodes_cons (k : Price) (c : OrderPointers) (rest : Levels) :
    Levels.nodes ((k, c) :: rest) = c ++ Levels.nodes rest := rfl

/-- The body of the inner loop leaves a residual of each front queue. -/
theorem matchFront_residual {bid ask : Node} {bidRest askRest : OrderPointers}
    {orders : Registry} {trades : Trades}
    {r : OrderPointers × OrderPointers × Registry × Trades}
    (h : matchFront bid ask bidRest askRest orders trades = .ok r) :
    (r.1 = bidRest ∨ ∃ q, q ≤ bid.order.remainingQty ∧ r.1 = bid.withRemaining q :: bidRest) ∧
    (r.2.1 = askRest ∨ ∃ q, q ≤ ask.order.remainingQty ∧ r.2.1 = ask.withRemaining q :: askRest) := by
  rw [matchFront_eq] at h
  cases h
  constructor
  · by_cases h1 : bid.order.remainingQty ≤ ask.order.remainingQty
    · exact Or.inl (if_pos h1)
    · exact Or.inr ⟨_, Nat.sub_le _ _, if_neg h1⟩
  · by_cases h1 : ask.order.remainingQty ≤ bid.order.remainingQty
    · exact Or.inl (if_pos h1)
    · exact Or.inr ⟨_, Nat.sub_le _ _, if_neg h1⟩

/-- The matching loop finishes, and on each side it leaves a residual of the nodes in
priority order. -/
theorem MatchOrders_residual (b : Orderbook) :
    ∃ trades b1, b.MatchOrders = .ok (trades, b1) ∧
      Residual b.bids.nodes b1.bids.nodes ∧ Residual b.asks.nodes b1.asks.nodes := by
  refine matchLoop_rule
    (fun bids asks _ _ => Residual b.bids.nodes bids.nodes ∧ Residual b.asks.nodes asks.nodes)
    ?_ ?_ ?_ (b.bids.length + b.asks.length) b.bids b.asks b.orders [] (le_refl _)
    ⟨Residual.refl _, Residual.refl _⟩ |>.imp (fun _ h => h.imp (fun _ h => ⟨h.1, h.2.1⟩))
  · intro bidPrice bid bidRest bidsRest askPrice ask askRest asksRest orders trades r _ hJ hr
    obtain ⟨hb, ha⟩ := matchFront_residual hr
    simp only [Levels.nodes_cons, List.cons_append] at hJ ⊢
    constructor
    · rcases hb with hb | ⟨q, hq, hb⟩
      · rw [hb]; exact hJ.1.drop_front
      · rw [hb]; exact hJ.1.reduce hq
    · rcases ha with ha | ⟨q, hq, ha⟩
      · rw [ha]; exact hJ.2.drop_front
      · rw [ha]; exact hJ.2.reduce hq
  · intro _ _ _ _ _ hJ
    exact hJ
  · intro _ _ _ _ _ hJ
    exact hJ

theorem Node.withRemaining_addr (n : Node) (r : Quantity) :
    (n.withRemaining r).addr = n.addr := rfl

theorem Node.withRemaining_id (n : Node) (r : Quantity) :
    (n.withRemaining r).order.id = n.order.id := rfl

/-- Every node of a residual is a node of the original list, up to its remaining
quantity, and lies in the part of the list that was not dropped. -/
theorem Residual.mem_drop {l l1 : List Node} {k : Nat}
    (h : l1 = l.drop k ∨ ∃ n rest r, l.drop k = n :: rest ∧ r ≤ n.order.remainingQty ∧
      l1 = n.withRemaining r :: rest) {x : Node} (hx : x ∈ l1) :
    ∃ x0 ∈ l.drop k, x0.addr = x.addr ∧ x0.order.id = x.order.id := by
  rcases h with h | ⟨n, rest, r, hd, -, h⟩
  · exact ⟨x, h ▸ hx, rfl, rfl⟩
  · rw [h] at hx
    rw [hd]
    rcases List.mem_cons.1 hx with rfl | hx
    · exact ⟨n, List.mem_cons_self _ _, rfl, rfl⟩
    · exact ⟨x, List.mem_cons_of_mem _ hx, rfl, rfl⟩

theorem Residual.mem {l l1 : List Node} (h : Residual l l1) {x : Node} (hx : x ∈ l1) :
    ∃ x0 ∈ l, x0.addr = x.addr ∧ x0.order.id = x.order.id := by
  obtain ⟨k, h⟩ := h
  obtain ⟨x0, hx0, h1, h2⟩ := Residual.mem_drop h hx
  exact ⟨x0, List.mem_of_mem_drop hx0, h1, h2⟩

/-- Time priority in a residual: when a node is no longer in the residual as it was, no
node that was ahead of it is left. -/
theorem Residual.ahead_removed {l l1 : List Node} (h : Residual l l1)
    (hnd : (l.map Node.addr).Nodup) {pre mid post : List Node} {m n : Node}
    (hl : l = pre ++ m :: (mid ++ n :: post)) (hn : n ∉ l1) :
    ∀ x ∈ l1, x.addr ≠ m.addr := by
  obtain ⟨k, h⟩ := h
  have hm : m ∈ l.take k := by
    by_cases hk : k ≤ pre.length
    · exfalso
      have hd : l.drop k = pre.drop k ++ m :: (mid ++ n :: post) := by
        rw [hl, List.drop_append_of_le_length hk]
      apply hn
      rcases h with h | ⟨h0, rest, r, hd2, -, h⟩
      · rw [h, hd]; simp
      · rw [h]
        rw [hd] at hd2
        cases hp : pre.drop k with
        | nil =>
          rw [hp] at hd2
          injection hd2 with _ h2
          subst h2
          simp
        | cons a p2 =>
          rw [hp] at hd2
          injection hd2 with _ h2
          subst h2
          simp
    · have hk2 : pre.length < k := Nat.lt_of_not_le hk
      obtain ⟨j, hj⟩ : ∃ j, k = pre.length + (j + 1) := ⟨k - pre.length - 1, by omega⟩
      rw [hl, hj, List.take_append]
      simp
  intro x hx hxm
  obtain ⟨x0, hx0, hx0a, -⟩ := Residual.mem_drop h hx
  rw [← List.take_append_drop k l, List.map_append] at hnd
  have hdisj := (List.nodup_append.1 hnd).2.2
  exact hdisj (List.mem_map_of_mem Node.addr hm)
    (by rw [← hxm, ← hx0a]; exact List.mem_map_of_mem Node.addr hx0)

theorem Levels.nodes_append (xs ys : Levels) :
    Levels.nodes (xs ++ ys) = Levels.nodes xs ++ Levels.nodes ys := by
  induction xs with
  | nil => rfl
  | cons l rest ih =>
    obtain ⟨k, c⟩ := l
    simp only [List.cons_append, Levels.nodes_cons, ih, List.append_assoc]

theorem Side.before_irrefl (s : Side) (p : Price) : ¬ s.before p p = true := by
  cases s <;> simp [Side.before]

theorem Side.before_asymm (s : Side) {p q : Price} (h : s.before p q = true) :
    ¬ s.before q p = true :=
  fun h2 => s.before_irrefl p (s.before_trans h h2)

/-- In a map in comparator order a level with the better price comes first. -/
theorem Levels.Sorted.split_of_before {s : Side} {ls : Levels} (hs : Levels.Sorted s ls)
    {lm ln : Price × OrderPointers} (hm : lm ∈ ls) (hn : ln ∈ ls)
    (hb : s.before lm.1 ln.1 = true) : ∃ xs ys zs, ls = xs ++ lm :: (ys ++ ln :: zs) := by
  induction ls with
  | nil => simp at hm
  | cons l rest ih =>
    rcases List.mem_cons.1 hm with rfl | hm2
    · rcases List.mem_cons.1 hn with rfl | hn2
      · exact absurd hb (s.before_irrefl _)
      · obtain ⟨ys, zs, h⟩ := List.append_of_mem hn2
        exact ⟨[], ys, zs, by rw [h]; rfl⟩
    · rcases List.mem_cons.1 hn with rfl | hn2
      · rcases hs.head_before hm with h | h
        · rw [h] at hb
          exact absurd hb (s.before_irrefl _)
        · exact absurd hb (s.before_asymm h)
      · obtain ⟨xs, ys, zs, h⟩ := ih hs.of_cons hm2 hn2
        exact ⟨l :: xs, ys, zs, by rw [h]; rfl⟩

/-- In a map in comparator order, a node that is ahead of another one (better price, or
same queue and earlier) comes first in the list of all nodes. -/
theorem Levels.Ahead.nodes_split {s : Side} {ls : Levels} (hs : Levels.Sorted s ls)
    {m n : Node} (h : Levels.Ahead s ls m n) :
    ∃ pre mid post, ls.nodes = pre ++ m :: (mid ++ n :: post) := by
  rcases h with ⟨lm, hlm, ln, hln, hm, hn, hb⟩ | ⟨l, hl, pre, mid, post, hq⟩
  · obtain ⟨xs, ys, zs, h⟩ := hs.split_of_before hlm hln hb
    obtain ⟨a1, a2, ha⟩ := List.append_of_mem hm
    obtain ⟨c1, c2, hc⟩ := List.append_of_mem hn
    obtain ⟨pm, qm⟩ := lm
    obtain ⟨pn, qn⟩ := ln
    simp only at ha hc
    refine ⟨Levels.nodes xs ++ a1, a2 ++ Levels.nodes ys ++ c1, c2 ++ Levels.nodes zs, ?_⟩
    rw [h, Levels.nodes_append, Levels.nodes_cons, Levels.nodes_append, Levels.nodes_cons,
      ha, hc]
    simp only [List.append_assoc, List.cons_append]
  · obtain ⟨xs, zs, h⟩ := List.append_of_mem hl
    obtain ⟨p, q⟩ := l
    simp only at hq
    refine ⟨Levels.nodes xs ++ pre, mid, post ++ Levels.nodes zs, ?_⟩
    rw [h, Levels.nodes_append, Levels.nodes_cons, hq]
    simp only [List.append_assoc, List.cons_append]

theorem filledQty_append (t1 t2 : Trades) (s : Side) (id : OrderId) :
    filledQty (t1 ++ t2) s id = filledQty t1 s id + filledQty t2 s id := by
  simp [filledQty]

theorem restingQty_append (l1 l2 : List Node) (id : OrderId) :
    restingQty (l1 ++ l2) id = restingQty l1 id + restingQty l2 id := by
  simp [restingQty]

theorem restingQty_cons (n : Node) (l : List Node) (id : OrderId) :
    restingQty (n :: l) id =
      (if n.order.id = id then n.order.remainingQty else 0) + restingQty l id := by
  simp [restingQty]

/-- The body of the inner loop moves the traded quantity from the resting quantity of the
two front orders to the trade list, and touches no other order. -/
theorem matchFront_conserve {bid ask : Node} {bidRest askRest : OrderPointers}
    {orders : Registry} {trades : Trades}
    {r : OrderPointers × OrderPointers × Registry × Trades}
    (h : matchFront bid ask bidRest askRest orders trades = .ok r) (id : OrderId) :
    filledQty r.2.2.2 .Buy id + restingQty r.1 id =
      filledQty trades .Buy id + restingQty (bid :: bidRest) id ∧
    filledQty r.2.2.2 .Sell id + restingQty r.2.1 id =
      filledQty trades .Sell id + restingQty (ask :: askRest) id := by
  rw [matchFront_eq] at h
  cases h
  simp only [filledQty_append, restingQty_cons]
  constructor
  · by_cases h1 : bid.order.remainingQty ≤ ask.order.remainingQty
    · by_cases hid : bid.order.id = id
      · simp [filledQty, Trade.leg, h1, hid, Nat.min_eq_left h1]
        simp only [Quantity] at *
        omega
      · simp [filledQty, Trade.leg, h1, hid]
    · have h2 : ask.order.remainingQty ≤ bid.order.remainingQty :=
        Nat.le_of_lt (Nat.not_le.1 h1)
      by_cases hid : bid.order.id = id
      · simp [filledQty, Trade.leg, h1, hid, Nat.min_eq_right h2, restingQty_cons]
        simp only [Quantity] at *
        omega
      · simp [filledQty, Trade.leg, h1, hid, restingQty_cons]
  · by_cases h1 : ask.order.remainingQty ≤ bid.order.remainingQty
    · by_cases hid : ask.order.id = id
      · simp [filledQty, Trade.leg, h1, hid, Nat.min_eq_right h1]
        simp only [Quantity] at *
        omega
      · simp [filledQty, Trade.leg, h1, hid]
    · have h2 : bid.order.remainingQty ≤ ask.order.remainingQty :=
        Nat.le_of_lt (Nat.not_le.1 h1)
      by_cases hid : ask.order.id = id
      · simp [filledQty, Trade.leg, h1, hid, Nat.min_eq_left h2, restingQty_cons]
        simp only [Quantity] at *
        omega
      · simp [filledQty, Trade.leg, h1, hid, restingQty_cons]

/-- Conservation in the matching loop: on each side and for each id, the quantity traded
under the id plus the quantity still resting under it is the quantity that rested under
it before. -/
theorem MatchOrders_conserve (b : Orderbook) :
    ∃ trades b1, b.MatchOrders = .ok (trades, b1) ∧
      ∀ id, filledQty trades .Buy id + restingQty b1.bids.nodes id =
              restingQty b.bids.nodes id ∧
            filledQty trades .Sell id + restingQty b1.asks.nodes id =
              restingQty b.asks.nodes id := by
  refine matchLoop_rule
    (fun bids asks _ trades =>
      ∀ id, filledQty trades .Buy id + restingQty bids.nodes id =
              restingQty b.bids.nodes id ∧
            filledQty trades .Sell id + restingQty asks.nodes id =
              restingQty b.asks.nodes id)
    ?_ ?_ ?_ (b.bids.length + b.asks.length) b.bids b.asks b.orders [] (le_refl _)
    (fun id => by simp [filledQty]) |>.imp (fun _ h => h.imp (fun _ h => ⟨h.1, h.2.1⟩))
  · intro bidPrice bid bidRest bidsRest askPrice ask askRest asksRest orders trades r _ hJ hr id
    obtain ⟨hb, ha⟩ := matchFront_conserve hr id
    have hJ1 := (hJ id).1
    have hJ2 := (hJ id).2
    simp only [Levels.nodes_cons, restingQty_append] at hJ1 hJ2 ⊢
    simp only [Quantity] at *
    constructor <;> omega
  · intro _ _ _ _ _ hJ
    exact hJ
  · intro _ _ _ _ _ hJ
    exact hJ

theorem restingQty_eq_zero {l : List Node} {id : OrderId} (h : ∀ x ∈ l, x.order.id ≠ id) :
    restingQty l id = 0 := by
  induction l with
  | nil => rfl
  | cons n rest ih =>
    rw [restingQty_cons, if_neg (h n (List.mem_cons_self _ _)),
      ih (fun x hx => h x (List.mem_cons_of_mem _ hx))]

theorem restingQty_eq_of_unique {l : List Node} {m : Node} (hm : m ∈ l)
    (hnd : (l.map Node.addr).Nodup)
    (hu : ∀ x ∈ l, x.order.id = m.order.id → x.addr = m.addr) :
    restingQty l m.order.id = m.order.remainingQty := by
  induction l with
  | nil => simp at hm
  | cons n rest ih =>
    simp only [List.map_cons, List.nodup_cons, List.mem_map, not_exists, not_and] at hnd
    rw [restingQty_cons]
    rcases List.mem_cons.1 hm with rfl | hm2
    · rw [if_pos rfl, restingQty_eq_zero, Nat.add_zero]
      intro x hx hid
      exact hnd.1 x hx (hu x (List.mem_cons_of_mem _ hx) hid)
    · have hne : ¬ n.order.id = m.order.id := by
        intro hid
        exact hnd.1 m hm2 (hu n (List.mem_cons_self _ _) hid).symm
      rw [if_neg hne, Nat.zero_add]
      exact ih hm2 hnd.2 (fun x hx => hu x (List.mem_cons_of_mem _ hx))

/-- In a well-formed book two nodes that hold orders of one id have one address. -/
theorem Orderbook.WellFormed.addr_eq_of_id_eq {b : Orderbook} (hwf : b.WellFormed)
    {s : Side} {m x : Node} (hm : m ∈ (b.levels s).nodes) (hx : x ∈ (b.levels s).nodes)
    (hid : x.order.id = m.order.id) : x.addr = m.addr := by
  obtain ⟨lm, hlm, hmq⟩ := Levels.mem_nodes.1 hm
  obtain ⟨lx, hlx, hxq⟩ := Levels.mem_nodes.1 hx
  have h1 := (hwf.nodes s lm hlm m hmq).2.2
  have h2 := (hwf.nodes s lx hlx x hxq).2.2
  rw [hid, h1] at h2
  injection h2 with h2
  injection h2 with _ _ _ h3
  exact h3.symm

theorem Levels.Ahead.mem_left {s : Side} {ls : Levels} {m n : Node}
    (h : Levels.Ahead s ls m n) : m ∈ ls.nodes := by
  rcases h with ⟨lm, hlm, ln, hln, hm, hn, hb⟩ | ⟨l, hl, pre, mid, post, hq⟩
  · exact Levels.mem_nodes.2 ⟨lm, hlm, hm⟩
  · exact Levels.mem_nodes.2 ⟨l, hl, by rw [hq]; simp⟩

/-! ### Termination and abnormal results -/

/-- Once the outer loop has finished with some fuel, more fuel gives the same result. -/
theorem matchLoop_fuel_succ (fuel : Nat) (bids asks : Levels) (orders : Registry)
    (trades : Trades) (x : Trades × Orderbook)
    (h : matchLoop fuel bids asks orders trades = .ok x) :
    matchLoop (fuel + 1) bids asks orders trades = .ok x := by
  induction fuel generalizing bids asks orders trades with
  | zero =>
    cases bids with
    | nil => simpa [matchLoop] using h
    | cons bl bidsRest =>
      cases asks with
      | nil => simpa [matchLoop] using h
      | cons al asksRest =>
        obtain ⟨bidPrice, bidList⟩ := bl
        obtain ⟨askPrice, askList⟩ := al
        by_cases hlt : bidPrice < askPrice
        · simpa [matchLoop, hlt] using h
        · simp [matchLoop, hlt] at h
  | succ fuel ih =>
    cases bids with
    | nil => simpa [matchLoop] using h
    | cons bl bidsRest =>
      cases asks with
      | nil => simpa [matchLoop] using h
      | cons al asksRest =>
        obtain ⟨bidPrice, bidList⟩ := bl
        obtain ⟨askPrice, askList⟩ := al
        by_cases hlt : bidPrice < askPrice
        · simpa [matchLoop, hlt] using h
        · simp only [matchLoop, hlt, if_false] at h ⊢
          cases hm : matchLevel (bidList.length + askList.length) bidList askList orders
              trades with
          | error e => simp [hm] at h
          | ok r =>
            obtain ⟨bl1, al1, o1, t1⟩ := r
            simp only [hm] at h ⊢
            exact ih _ _ _ _ h

theorem matchLoop_fuel_le {fuel fuel1 : Nat} (hle : fuel ≤ fuel1) (bids asks : Levels)
    (orders : Registry) (trades : Trades) (x : Trades × Orderbook)
    (h : matchLoop fuel bids asks orders trades = .ok x) :
    matchLoop fuel1 bids asks orders trades = .ok x := by
  induction hle with
  | refl => exact h
  | step _ ih => exact matchLoop_fuel_succ _ _ _ _ _ _ ih

/-- The matching loop finishes, with the front prices not crossing. -/
theorem MatchOrders_ok_front (b : Orderbook) :
    ∃ trades b1, b.MatchOrders = .ok (trades, b1) ∧
      ∀ bl al, b1.bids.head? = some bl → b1.asks.head? = some al → bl.1 < al.1 := by
  obtain ⟨trades, b1, h1, -, hX⟩ := matchLoop_rule (fun _ _ _ _ => True)
    (fun _ _ _ _ _ _ _ _ _ _ _ _ _ _ => trivial) (fun _ _ _ _ _ _ => trivial)
    (fun _ _ _ _ _ _ => trivial)
    (b.bids.length + b.asks.length) b.bids b.asks b.orders [] (le_refl _) trivial
  exact ⟨trades, b1, h1, hX⟩

/-- `AddOrder` returns normally on every book and for every order. -/
theorem AddOrder_ok (b : Orderbook) (order : Order) :
    ∃ trades b1, b.AddOrder order = .ok (trades, b1) := by
  unfold Orderbook.AddOrder
  by_cases hFind : b.orders.find order.id = none
  · exact ⟨[], b, by rw [if_pos hFind]⟩
  · by_cases hFak : order.type = OrderType.FillAndKill ∧
        ¬ b.CanMatch order.side order.price = true
    · exact ⟨[], b, by rw [if_neg hFind, if_pos hFak]⟩
    · rw [if_neg hFind, if_neg hFak]
      cases order.side with
      | Buy => exact (MatchOrders_ok_front _).imp (fun _ h => h.imp (fun _ h => h.1))
      | Sell => exact (MatchOrders_ok_front _).imp (fun _ h => h.imp (fun _ h => h.1))

theorem cancelInLevels_error {ls : Levels} {p : Price} {loc : Nat} {e : Error}
    (h : cancelInLevels ls p loc = .error e) : e = .outOfRange ∨ e = .invalidIterator := by
  unfold cancelInLevels at h
  split at h
  · cases h; exact Or.inl rfl
  · split at h
    · cases h; exact Or.inr rfl
    · split at h <;> cases h

/-- The only abnormal results of `CancelOrder` are the two of its container accesses. -/
theorem CancelOrder_error {b : Orderbook} {id : OrderId} {e : Error}
    (h : b.CancelOrder id = .error e) : e = .outOfRange ∨ e = .invalidIterator := by
  unfold Orderbook.CancelOrder at h
  split at h
  · cases h
  · split at h
    · split at h
      · rename_i e1 hc
        cases h
        exact cancelInLevels_error hc
      · cases h
    · split at h
      · rename_i e1 hc
        cases h
        exact cancelInLevels_error hc
      · cases h

/-! ### `GetOrderInfos` -/

theorem foldl_accumulate (orders : OrderPointers) (a : Nat) :
    orders.foldl (fun sum o => (sum + o.order.remainingQty) % 2 ^ 32) (a % 2 ^ 32) =
      (a + queueQty orders) % 2 ^ 32 := by
  induction orders generalizing a with
  | nil => simp [queueQty]
  | cons n rest ih =>
    simp only [List.foldl_cons, queueQty, List.map_cons, List.sum_cons]
    rw [Nat.mod_add_mod, ih]
    simp only [queueQty, Nat.add_assoc]

/-- `createLevel` gives the price and the sum of the remaining quantities in 32-bit
unsigned arithmetic. -/
theorem createLevel_eq (p : Price) (orders : OrderPointers) :
    createLevel p orders = { price := p, quantity := queueQty orders % 2 ^ 32 } := by
  have := foldl_accumulate orders 0
  simp only [Nat.zero_mod, Nat.zero_add] at this
  simp only [createLevel, this]

/-! ### Trade records -/

theorem matchFront_trades {bid ask : Node} {bidRest askRest : OrderPointers}
    {orders : Registry} {trades : Trades}
    {r : OrderPointers × OrderPointers × Registry × Trades}
    (h : matchFront bid ask bidRest askRest orders trades = .ok r) :
    r.2.2.2 = trades ++
      [{ bid := { id := bid.order.id, price := bid.order.price,
                  qty := min bid.order.remainingQty ask.order.remainingQty },
         ask := { id := ask.order.id, price := ask.order.price,
                  qty := min bid.order.remainingQty ask.order.remainingQty } }] := by
  rw [matchFront_eq] at h
  cases h
  rfl

theorem Levels.NodesFrom.drop_level {l : Price × OrderPointers} {rest : Levels}
    {origin : List Node} (h : Levels.NodesFrom (l :: rest) origin) :
    Levels.NodesFrom rest origin :=
  fun m hm => h m (List.mem_cons_of_mem _ hm)

/-- Replacing the front queue by what the loop body leaves of it keeps `NodesFrom`. -/
theorem Levels.NodesFrom.front {p : Price} {n : Node} {t q : OrderPointers} {rest : Levels}
    {origin : List Node} (h : Levels.NodesFrom ((p, n :: t) :: rest) origin)
    (hq : q = t ∨ ∃ r, r ≤ n.order.remainingQty ∧ q = n.withRemaining r :: t) :
    Levels.NodesFrom ((p, q) :: rest) origin := by
  intro l hl x hx
  rcases List.mem_cons.1 hl with rfl | hl2
  · have h0 := h (p, n :: t) (List.mem_cons_self _ _)
    rcases hq with rfl | ⟨r, -, rfl⟩
    · exact h0 x (List.mem_cons_of_mem _ hx)
    · rcases List.mem_cons.1 hx with rfl | hx2
      · exact h0 n (List.mem_cons_self _ _)
      · exact h0 x (List.mem_cons_of_mem _ hx2)
  · exact h l (List.mem_cons_of_mem _ hl2) x hx

/-- The matching loop finishes, and every trade it returns is made of two orders that
rested in the book, provided every node holds an order of the price of its level. -/
theorem MatchOrders_tradeFrom (b : Orderbook)
    (hb : ∀ l ∈ b.bids, ∀ n ∈ l.2, n.order.price = l.1)
    (ha : ∀ l ∈ b.asks, ∀ n ∈ l.2, n.order.price = l.1) :
    ∃ trades b1, b.MatchOrders = .ok (trades, b1) ∧ ∀ t ∈ trades, TradeFrom b t := by
  refine matchLoop_rule
    (fun bids asks _ trades =>
      bids.NodesFrom b.bids.nodes ∧ asks.NodesFrom b.asks.nodes ∧ ∀ t ∈ trades, TradeFrom b t)
    ?_ ?_ ?_ (b.bids.length + b.asks.length) b.bids b.asks b.orders [] (le_refl _)
    ⟨fun l hl n hn => ⟨hb l hl n hn, n, Levels.mem_nodes.2 ⟨l, hl, hn⟩, rfl, rfl⟩,
     fun l hl n hn => ⟨ha l hl n hn, n, Levels.mem_nodes.2 ⟨l, hl, hn⟩, rfl, rfl⟩,
     fun t ht => by simp at ht⟩
    |>.imp (fun _ h => h.imp (fun _ h => ⟨h.1, h.2.1.2.2⟩))
  · intro bidPrice bid bidRest bidsRest askPrice ask askRest asksRest orders trades r hlt hJ hr
    obtain ⟨hJb, hJa, hJt⟩ := hJ
    obtain ⟨hrb, hra⟩ := matchFront_residual hr
    refine ⟨hJb.front hrb, hJa.front hra, ?_⟩
    rw [matchFront_trades hr]
    intro t ht
    rcases List.mem_append.1 ht with ht | ht
    · exact hJt t ht
    · simp only [List.mem_singleton] at ht
      subst ht
      obtain ⟨hbp, b0, hb0, hb0id, hb0p⟩ :=
        hJb _ (List.mem_cons_self _ _) bid (List.mem_cons_self _ _)
      obtain ⟨hap, a0, ha0, ha0id, ha0p⟩ :=
        hJa _ (List.mem_cons_self _ _) ask (List.mem_cons_self _ _)
      refine ⟨⟨b0, hb0, hb0id.symm, hb0p.symm⟩, ⟨a0, ha0, ha0id.symm, ha0p.symm⟩, ?_, rfl⟩
      simp only at hbp hap ⊢
      rw [hbp, hap]
      exact not_lt.1 hlt
  · intro _ _ _ _ _ hJ
    exact ⟨hJ.1.drop_level, hJ.2⟩
  · intro _ _ _ _ _ hJ
    exact ⟨hJ.1, hJ.2.1.drop_level, hJ.2.2⟩

/-! ### Conservation for one order -/

theorem Node.withRemaining_self (n : Node) : n.withRemaining n.order.remainingQty = n := rfl

/-- Every node of a residual is a node of the original list with a remaining quantity
that is not larger. -/
theorem Residual.mem_eq {l l1 : List Node} (h : Residual l l1) {x : Node} (hx : x ∈ l1) :
    ∃ x0 ∈ l, ∃ r, r ≤ x0.order.remainingQty ∧ x = x0.withRemaining r := by
  obtain ⟨k, h | ⟨n, rest, r, hd, hr, h⟩⟩ := h
  · rw [h] at hx
    exact ⟨x, List.mem_of_mem_drop hx, _, le_refl _, rfl⟩
  · rw [h] at hx
    have hsub : ∀ y ∈ n :: rest, y ∈ l := fun y hy => List.mem_of_mem_drop (hd ▸ hy)
    rcases List.mem_cons.1 hx with rfl | hx2
    · exact ⟨n, hsub n (List.mem_cons_self _ _), r, hr, rfl⟩
    · exact ⟨x, hsub x (List.mem_cons_of_mem _ hx2), _, le_refl _, rfl⟩

theorem Residual.nodup_addr {l l1 : List Node} (h : Residual l l1)
    (hnd : (l.map Node.addr).Nodup) : (l1.map Node.addr).Nodup := by
  obtain ⟨k, h | ⟨n, rest, r, hd, -, h⟩⟩ := h
  · rw [h]
    exact List.Nodup.sublist ((List.drop_sublist k l).map Node.addr) hnd
  · have : l1.map Node.addr = (l.drop k).map Node.addr := by
      rw [h, hd]; rfl
    rw [this]
    exact List.Nodup.sublist ((List.drop_sublist k l).map Node.addr) hnd

/-- What the matching loop does to one order of a well-formed book: the order is gone
and the trades under its id add up to its remaining quantity, or it rests with a
remaining quantity that is smaller by what the trades under its id add up to. -/
theorem Residual.filled_or_rests {l l1 : List Node} (h : Residual l l1)
    (hnd : (l.map Node.addr).Nodup)
    (hu : ∀ x ∈ l, ∀ y ∈ l, x.order.id = y.order.id → x.addr = y.addr)
    {n : Node} (hn : n ∈ l) {filled : Nat}
    (hc : filled + restingQty l1 n.order.id = restingQty l n.order.id) :
    ((∀ x ∈ l1, x.order.id ≠ n.order.id) ∧ filled = n.order.remainingQty) ∨
    (∃ r, r ≤ n.order.remainingQty ∧ n.withRemaining r ∈ l1 ∧
      filled + r = n.order.remainingQty) := by
  rw [restingQty_eq_of_unique hn hnd (fun x hx hid => hu x hx n hn hid)] at hc
  by_cases hex : ∃ x ∈ l1, x.order.id = n.order.id
  · right
    obtain ⟨x, hx, hid⟩ := hex
    obtain ⟨x0, hx0, r, hr, rfl⟩ := h.mem_eq hx
    have hx0n : x0 = n :=
      List.inj_on_of_nodup_map hnd hx0 hn (hu x0 hx0 n hn hid)
    subst hx0n
    refine ⟨r, hr, hx, ?_⟩
    have hrest : restingQty l1 (x0.withRemaining r).order.id =
        (x0.withRemaining r).order.remainingQty := by
      apply restingQty_eq_of_unique hx (h.nodup_addr hnd)
      intro y hy hyid
      obtain ⟨y0, hy0, q, -, rfl⟩ := h.mem_eq hy
      exact hu y0 hy0 x0 hx0 hyid
    simp only [Node.withRemaining] at hrest
    rw [hrest] at hc
    exact hc
  · left
    have hne : ∀ x ∈ l1, x.order.id ≠ n.order.id := fun x hx hid => hex ⟨x, hx, hid⟩
    rw [restingQty_eq_zero hne] at hc
    exact ⟨hne, hc⟩

/-- In a well-formed book an id is held on one side only. -/
theorem Orderbook.WellFormed.id_ne_across {b : Orderbook} (hwf : b.WellFormed)
    {m n : Node} (hm : m ∈ b.bids.nodes) (hn : n ∈ b.asks.nodes) :
    m.order.id ≠ n.order.id := by
  intro hid
  obtain ⟨lm, hlm, hmq⟩ := Levels.mem_nodes.1 hm
  obtain ⟨ln, hln, hnq⟩ := Levels.mem_nodes.1 hn
  have h1 := (hwf.nodes .Buy lm hlm m hmq).2.2
  have h2 := (hwf.nodes .Sell ln hln n hnq).2.2
  rw [hid, h2] at h1
  injection h1 with h1
  injection h1 with _ hs _ _
  cases hs

/-! ### The insertion step and empty levels -/

/-- The two ways through `AddOrder`: it returns the book unchanged with no trades, or it
inserts the order and runs the matching loop. -/
theorem AddOrder_cases (b : Orderbook) (order : Order) :
    b.AddOrder order = .ok ([], b) ∨
    (b.orders.find order.id ≠ none ∧
      (order.type = OrderType.FillAndKill → b.CanMatch order.side order.price = true) ∧
      b.AddOrder order = (b.insert order).MatchOrders) := by
  unfold Orderbook.AddOrder
  by_cases hFind : b.orders.find order.id = none
  · exact Or.inl (by rw [if_pos hFind])
  · by_cases hFak : order.type = OrderType.FillAndKill ∧
        ¬ b.CanMatch order.side order.price = true
    · exact Or.inl (by rw [if_neg hFind, if_pos hFak])
    · refine Or.inr ⟨hFind, ?_, ?_⟩
      · intro hT
        by_contra hc
        exact hFak ⟨hT, hc⟩
      · rw [if_neg hFind, if_neg hFak]
        unfold Orderbook.insert
        cases order.side <;> rfl

theorem Levels.pushBack_noEmpty (s : Side) (ls : Levels) (price : Price) (n : Node)
    (h : ls.NoEmpty) : (ls.pushBack s price n).NoEmpty := by
  induction ls with
  | nil =>
    intro l hl
    simp only [Levels.pushBack, List.mem_singleton] at hl
    subst hl
    simp
  | cons l rest ih =>
    obtain ⟨p, q⟩ := l
    have hrest : Levels.NoEmpty rest := fun m hm => h m (List.mem_cons_of_mem _ hm)
    unfold Levels.pushBack
    split
    · intro m hm
      rcases List.mem_cons.1 hm with rfl | hm2
      · simp
      · exact hrest m hm2
    · split
      · intro m hm
        rcases List.mem_cons.1 hm with rfl | hm2
        · simp
        · exact h m hm2
      · intro m hm
        rcases List.mem_cons.1 hm with rfl | hm2
        · exact h _ (List.mem_cons_self _ _)
        · exact ih hrest m hm2

/-- The outer loop keeps the levels free of empty queues. -/
theorem matchLoop_noEmpty (fuel : Nat) (bids asks : Levels) (orders : Registry)
    (trades : Trades) (x : Trades × Orderbook) (hb : bids.NoEmpty) (ha : asks.NoEmpty)
    (h : matchLoop fuel bids asks orders trades = .ok x) :
    x.2.bids.NoEmpty ∧ x.2.asks.NoEmpty := by
  induction fuel generalizing bids asks orders trades with
  | zero =>
    cases bids with
    | nil =>
      simp only [matchLoop] at h
      cases h
      exact ⟨hb, ha⟩
    | cons bl bidsRest =>
      cases asks with
      | nil =>
        simp only [matchLoop] at h
        cases h
        exact ⟨hb, ha⟩
      | cons al asksRest =>
        obtain ⟨bidPrice, bidList⟩ := bl
        obtain ⟨askPrice, askList⟩ := al
        by_cases hlt : bidPrice < askPrice
        · simp only [matchLoop, hlt, if_true] at h
          cases h
          exact ⟨hb, ha⟩
        · simp [matchLoop, hlt] at h
  | succ fuel ih =>
    cases bids with
    | nil =>
      simp only [matchLoop] at h
      cases h
      exact ⟨hb, ha⟩
    | cons bl bidsRest =>
      cases asks with
      | nil =>
        simp only [matchLoop] at h
        cases h
        exact ⟨hb, ha⟩
      | cons al asksRest =>
        obtain ⟨bidPrice, bidList⟩ := bl
        obtain ⟨askPrice, askList⟩ := al
        by_cases hlt : bidPrice < askPrice
        · simp only [matchLoop, hlt, if_true] at h
          cases h
          exact ⟨hb, ha⟩
        · simp only [matchLoop, hlt, if_false] at h
          cases hm : matchLevel (bidList.length + askList.length) bidList askList orders
              trades with
          | error e => simp [hm] at h
          | ok r =>
            obtain ⟨bl1, al1, o1, t1⟩ := r
            simp only [hm] at h
            have hbr : Levels.NoEmpty bidsRest := fun m hm => hb m (List.mem_cons_of_mem _ hm)
            have har : Levels.NoEmpty asksRest := fun m hm => ha m (List.mem_cons_of_mem _ hm)
            refine ih _ _ _ _ ?_ ?_ h
            · cases bl1 with
              | nil => exact hbr
              | cons n t =>
                intro m hm
                rcases List.mem_cons.1 hm with rfl | hm2
                · simp
                · exact hbr m hm2
            · cases al1 with
              | nil => exact har
              | cons n t =>
                intro m hm
                rcases List.mem_cons.1 hm with rfl | hm2
                · simp
                · exact har m hm2

theorem Orderbook.insert_noEmpty (b : Orderbook) (order : Order) (hb : b.bids.NoEmpty)
    (ha : b.asks.NoEmpty) : (b.insert order).bids.NoEmpty ∧ (b.insert order).asks.NoEmpty := by
  unfold Orderbook.insert
  cases order.side
  · exact ⟨Levels.pushBack_noEmpty _ _ _ _ hb, ha⟩
  · exact ⟨hb, Levels.pushBack_noEmpty _ _ _ _ ha⟩

/-- `AddOrder` returns normally and keeps the levels free of empty queues. -/
theorem AddOrder_noEmpty (b : Orderbook) (order : Order) (hb : b.bids.NoEmpty)
    (ha : b.asks.NoEmpty) :
    ∃ trades b1, b.AddOrder order = .ok (trades, b1) ∧ b1.bids.NoEmpty ∧ b1.asks.NoEmpty := by
  rcases AddOrder_cases b order with h | ⟨-, -, h⟩
  · exact ⟨[], b, h, hb, ha⟩
  · obtain ⟨trades, b1, h1⟩ := AddOrder_ok b order
    refine ⟨trades, b1, h1, ?_⟩
    rw [h] at h1
    have hi := b.insert_noEmpty order hb ha
    exact matchLoop_noEmpty _ _ _ _ _ _ hi.1 hi.2 h1

theorem cancelInLevels_noEmpty {ls ls1 : Levels} {p : Price} {loc : Nat}
    (h : cancelInLevels ls p loc = .ok ls1) (hne : ls.NoEmpty) : ls1.NoEmpty := by
  unfold cancelInLevels at h
  split at h
  · cases h
  · split at h
    · cases h
    · rename_i list1 _
      split at h
      · cases h
        intro m hm
        exact hne m (List.mem_of_mem_filter hm)
      · rename_i hemp
        cases h
        intro m hm
        unfold Levels.set at hm
        obtain ⟨m0, hm0, rfl⟩ := List.mem_map.1 hm
        split
        · simpa [List.isEmpty_iff] using hemp
        · exact hne m0 hm0

theorem CancelOrder_noEmpty {b b1 : Orderbook} {id : OrderId}
    (h : b.CancelOrder id = .ok b1) (hb : b.bids.NoEmpty) (ha : b.asks.NoEmpty) :
    b1.bids.NoEmpty ∧ b1.asks.NoEmpty := by
  unfold Orderbook.CancelOrder at h
  split at h
  · cases h
    exact ⟨hb, ha⟩
  · split at h
    · split at h
      · cases h
      · rename_i bids1 hc
        cases h
        exact ⟨cancelInLevels_noEmpty hc hb, ha⟩
    · split at h
      · cases h
      · rename_i asks1 hc
        cases h
        exact ⟨hb, cancelInLevels_noEmpty hc ha⟩

theorem ModifyOrder_ok_of_located {b : Orderbook} (hloc : b.EntriesLocated)
    (mod : OrderModify) : ∃ trades b1, b.ModifyOrder mod = .ok (trades, b1) := by
  unfold Orderbook.ModifyOrder
  split
  · exact ⟨[], b, rfl⟩
  · obtain ⟨b1, h1, -⟩ := CancelOrder_ok_of_located hloc mod.id
    simp only [h1]
    exact AddOrder_ok b1 _

/-! ### Calls on the empty book -/

theorem call_empty (c : Call) :
    Orderbook.empty.call c = .ok (c.noTrades, Orderbook.empty) := by
  cases c <;> rfl

/-! ### The books the program can be in, and the bijection -/

/-- Every book the program can be in is the empty book: `AddOrder` returns at its first
guard for every id that is not registered, and on the empty book none is. -/
theorem Orderbook.Reachable.eq_empty {b : Orderbook} (h : b.Reachable) :
    b = Orderbook.empty := by
  induction h with
  | empty => rfl
  | call b c r _ hc ih =>
    subst ih
    rw [call_empty] at hc
    cases hc
    rfl

theorem AddOrder_unregistered {b : Orderbook} {order : Order}
    (h : b.orders.find order.id = none) : b.AddOrder order = .ok ([], b) := by
  unfold Orderbook.AddOrder
  rw [if_pos h]

theorem Registry.mem_erase {r : Registry} {id : OrderId} {kv : OrderId × OrderEntry}
    (h : kv ∈ r.erase id) : kv ∈ r ∧ kv.1 ≠ id := by
  unfold Registry.erase at h
  simpa using List.mem_filter.1 h

/-- `CancelOrder` on a well-formed book keeps the bijection between registry and queue
entries, and leaves the id unregistered. -/
theorem Orderbook.WellFormed.CancelOrder_bijection {b : Orderbook} (hwf : b.WellFormed)
    (hbij : b.Bijection) (id : OrderId) :
    ∃ b1, b.CancelOrder id = .ok b1 ∧ b1.Bijection ∧ b1.orders.find id = none := by
  cases hfind : b.orders.find id with
  | none => exact ⟨b, CancelOrder_absent hfind, hbij, hfind⟩
  | some e =>
    obtain ⟨b1, h1, h2, h3⟩ := hwf.CancelOrder_eq hfind
    have hnodes : b1.bids.nodes ++ b1.asks.nodes =
        (b.bids.nodes ++ b.asks.nodes).filter (fun n => decide (n.order.id ≠ id)) := by
      have hb : b1.bids = b.bids.without id := h3 .Buy
      have ha : b1.asks = b.asks.without id := h3 .Sell
      rw [hb, ha, Levels.nodes_without, Levels.nodes_without, List.filter_append]
    refine ⟨b1, h1, ⟨?_, ?_, ?_⟩, by rw [h2]; exact Registry.find_erase_self _ _⟩
    · rw [h2]
      exact List.Nodup.sublist ((List.filter_sublist _).map Prod.fst) hbij.1
    · intro kv hkv
      rw [h2] at hkv
      obtain ⟨hmem, hne⟩ := Registry.mem_erase hkv
      rw [hnodes, List.filter_filter, ← hbij.2.1 kv hmem]
      congr 1
      apply List.filter_congr
      intro n _
      by_cases hn : n.order.id = kv.1
      · have : ¬ n.order.id = id := fun h => hne (hn.symm.trans h)
        simp [hn, this, hne]
      · simp [hn]
    · intro n hn
      rw [hnodes] at hn
      obtain ⟨hn1, hn2⟩ := List.mem_filter.1 hn
      have hne : n.order.id ≠ id := by simpa using hn2
      rw [h2, Registry.find_erase_ne _ hne]
      exact hbij.2.2 n hn1

/-- `ModifyOrder` on a well-formed book keeps the bijection: after the cancel the id is
not registered, and `AddOrder` returns at its first guard. -/
theorem Orderbook.WellFormed.ModifyOrder_bijection {b : Orderbook} (hwf : b.WellFormed)
    (hbij : b.Bijection) (mod : OrderModify) :
    ∃ trades b1, b.ModifyOrder mod = .ok (trades, b1) ∧ b1.Bijection := by
  unfold Orderbook.ModifyOrder
  cases hfind : b.orders.find mod.id with
  | none => exact ⟨[], b, rfl, hbij⟩
  | some e =>
    obtain ⟨b1, h1, hb1, hnone⟩ := hwf.CancelOrder_bijection hbij mod.id
    simp only [h1]
    exact ⟨[], b1, AddOrder_unregistered hnone, hb1⟩

theorem Orderbook.empty_wellFormed : Orderbook.empty.WellFormed := by decide

/-! ### The claims -/

/-- C2 (the code on a concrete book): on the empty book, `AddOrder` of a
GoodTillCancel buy with the unregistered id 1 (price 100, quantity 10), which crosses
nothing, returns no trades and leaves the book empty: the order is not appended to any
queue and its id is not registered. -/
theorem AddOrder_absent_id_is_dropped :
    Orderbook.empty.WellFormed ∧ Orderbook.empty.orders.find 1 = none ∧
    Orderbook.empty.CanMatch .Buy 100 = false ∧
    Orderbook.empty.AddOrder (Order.new .GoodTillCancel 1 .Buy 100 10) =
      .ok ([], Orderbook.empty) := by
  decide

/-- C3 (the code on the scenario of the specification): from the empty book, `AddOrder`
of the GoodTillCancel buy (id 1, price 100, quantity 10) and then of the GoodTillCancel
sell (id 2, price 100, quantity 4) both return no trades, and `GetOrderInfos` afterwards
shows no bid level and no ask level. -/
theorem AddOrder_scenario_cross_no_trade :
    ∃ b1 b2,
      Orderbook.empty.AddOrder (Order.new .GoodTillCancel 1 .Buy 100 10) = .ok ([], b1) ∧
      b1.AddOrder (Order.new .GoodTillCancel 2 .Sell 100 4) = .ok ([], b2) ∧
      b2.GetOrderInfos = { bids := [], asks := [] } ∧ b2.Size = 0 :=
  ⟨Orderbook.empty, Orderbook.empty, by decide⟩

/-- C4: for every book state and every FillAndKill order for which
`CanMatch(order.side, order.price)` is false, `AddOrder` returns no trades and leaves the
book unchanged (so every later snapshot is that of the old book). -/
theorem AddOrder_FillAndKill_unmatched (b : Orderbook) (order : Order)
    (hType : order.type = OrderType.FillAndKill)
    (hNoMatch : b.CanMatch order.side order.price = false) :
    b.AddOrder order = .ok ([], b) := by
  unfold Orderbook.AddOrder
  by_cases hFind : b.orders.find order.id = none
  · simp [hFind]
  · simp [hFind, hType, hNoMatch]

/-- C4 at the scenario of the specification: a FillAndKill sell (id 3, price 50,
quantity 5) submitted to the empty book yields zero trades and an empty snapshot. -/
theorem AddOrder_FillAndKill_unmatched_witness :
    Orderbook.empty.AddOrder (Order.new .FillAndKill 3 .Sell 50 5) =
      .ok ([], Orderbook.empty) ∧
    Orderbook.empty.GetOrderInfos = { bids := [], asks := [] } :=
  ⟨AddOrder_FillAndKill_unmatched Orderbook.empty (Order.new .FillAndKill 3 .Sell 50 5)
    rfl rfl, rfl⟩

/-- C5 (the code on the scenario of the specification): from the empty book, `AddOrder`
of the GoodTillCancel buy id 4 (price 10, quantity 5), `AddOrder` of the GoodTillCancel
buy id 5 (price 20, quantity 1) and then `ModifyOrder` of id 4 to price 20 and quantity 5
all return no trades and leave the empty book: the queue at bid price 20 is empty, not
the orders 5 and 4, and id 4 is not registered. -/
theorem ModifyOrder_scenario_leaves_empty_book :
    ∃ b1 b2 b3,
      Orderbook.empty.AddOrder (Order.new .GoodTillCancel 4 .Buy 10 5) = .ok ([], b1) ∧
      b1.AddOrder (Order.new .GoodTillCancel 5 .Buy 20 1) = .ok ([], b2) ∧
      b2.ModifyOrder { id := 4, side := .Buy, price := 20, qty := 5 } = .ok ([], b3) ∧
      b3.bids.queue 20 = [] ∧ b3.orders.find 4 = none ∧ b3.Size = 0 ∧
      b3.GetOrderInfos = { bids := [], asks := [] } :=
  ⟨Orderbook.empty, Orderbook.empty, Orderbook.empty, by decide⟩

/-- C6: for every book (with the two maps in comparator order, as `std::map` keeps them)
that is not crossed and every order, `AddOrder` returns normally and the book it leaves
is again not crossed: a side has no level, or every bid price, so also the highest, is
strictly below every ask price, so also the lowest.  The maps stay in comparator
order. -/
theorem AddOrder_notCrossed (b : Orderbook) (order : Order) (hs : b.MapsSorted)
    (hn : b.NotCrossed) :
    ∃ trades b1, b.AddOrder order = .ok (trades, b1) ∧ b1.MapsSorted ∧ b1.NotCrossed := by
  unfold Orderbook.AddOrder
  by_cases hFind : b.orders.find order.id = none
  · exact ⟨[], b, by simp [hFind], hs, hn⟩
  · by_cases hFak : order.type = OrderType.FillAndKill ∧
        ¬ b.CanMatch order.side order.price = true
    · exact ⟨[], b, by rw [if_neg hFind, if_pos hFak], hs, hn⟩
    · rw [if_neg hFind, if_neg hFak]
      cases order.side with
      | Buy => exact MatchOrders_notCrossed _ ⟨Levels.pushBack_sorted _ _ _ _ hs.1, hs.2⟩
      | Sell => exact MatchOrders_notCrossed _ ⟨hs.1, Levels.pushBack_sorted _ _ _ _ hs.2⟩

/-- C6 at the book `bookOneBid` and a crossing sell with the registered id 1. -/
theorem AddOrder_notCrossed_witness :
    bookOneBid.MapsSorted ∧ bookOneBid.NotCrossed ∧
    ∃ trades b1, bookOneBid.AddOrder (Order.new .GoodTillCancel 1 .Sell 100 4) =
      .ok (trades, b1) ∧ b1.MapsSorted ∧ b1.NotCrossed :=
  ⟨by decide, by decide,
    AddOrder_notCrossed bookOneBid (Order.new .GoodTillCancel 1 .Sell 100 4)
      (by decide) (by decide)⟩

/-- C7: for every well-formed book and every id present in the registry, `CancelOrder`
returns normally and removes exactly that order.  The registry is the old one with the id
erased; each side is the old side with the order of that id taken out of its queue and
with the level deleted whose queue became empty (`Levels.without`).  So afterwards the id
is absent from the registry, every other id keeps its entry, no queue holds an order of
the id, the nodes of the book are the old ones less one node (which held the id), every
queue is the old queue at that side and price without the order of the id, the other
orders in their old relative order, and a level is absent exactly when nothing is left
of its queue. -/
theorem CancelOrder_removes_exactly (b : Orderbook) (id : OrderId) (hwf : b.WellFormed)
    (hin : b.orders.find id ≠ none) :
    ∃ b1, b.CancelOrder id = .ok b1 ∧
      b1.orders = b.orders.erase id ∧
      b1.bids = b.bids.without id ∧ b1.asks = b.asks.without id ∧
      b1.orders.find id = none ∧
      (∀ j, j ≠ id → b1.orders.find j = b.orders.find j) ∧
      (∀ n ∈ b1.bids.nodes ++ b1.asks.nodes, n.order.id ≠ id) ∧
      (∃ n ∈ b.bids.nodes ++ b.asks.nodes, n.order.id = id ∧
        b1.bids.nodes ++ b1.asks.nodes = (b.bids.nodes ++ b.asks.nodes).erase n) ∧
      (∀ s p, (b1.levels s).queue p =
        ((b.levels s).queue p).filter (fun n => decide (n.order.id ≠ id))) ∧
      (∀ s p, (b1.levels s).find p = none ↔
        ((b.levels s).queue p).filter (fun n => decide (n.order.id ≠ id)) = []) := by
  obtain ⟨e, hfind⟩ := Option.ne_none_iff_exists'.1 hin
  obtain ⟨b1, h1, h2, h3⟩ := hwf.CancelOrder_eq hfind
  have hb : b1.bids = b.bids.without id := h3 .Buy
  have ha : b1.asks = b.asks.without id := h3 .Sell
  have hnodes : b1.bids.nodes ++ b1.asks.nodes =
      (b.bids.nodes ++ b.asks.nodes).filter (fun n => decide (n.order.id ≠ id)) := by
    rw [hb, ha, Levels.nodes_without, Levels.nodes_without, List.filter_append]
  refine ⟨b1, h1, h2, hb, ha, ?_, ?_, ?_, ?_, ?_, ?_⟩
  · rw [h2]; exact Registry.find_erase_self _ _
  · intro j hj
    rw [h2]; exact Registry.find_erase_ne _ hj
  · intro n hn
    rw [hnodes] at hn
    simpa using (List.mem_filter.1 hn).2
  · obtain ⟨n0, hn0, hn0a, hn0id⟩ := hwf.2.2.2.2.2.2.2 _ (Registry.mem_of_find hfind)
    simp only at hn0 hn0a hn0id
    obtain ⟨list, hlist, hn0l⟩ := Levels.find_of_mem_queue hn0
    have hn0all : n0 ∈ b.bids.nodes ++ b.asks.nodes :=
      Orderbook.mem_allNodes.2 ⟨e.side, _, Levels.find_mem hlist, hn0l⟩
    refine ⟨n0, hn0all, hn0id, ?_⟩
    have hnd : (b.bids.nodes ++ b.asks.nodes).Nodup := List.Nodup.of_map _ hwf.2.2.2.2.1
    rw [hnodes, List.Nodup.erase_eq_filter hnd]
    apply List.filter_congr
    intro m hm
    have : m.order.id = id ↔ m = n0 := by
      constructor
      · intro hid
        obtain ⟨s, l, hl, hml⟩ := Orderbook.mem_allNodes.1 hm
        have := (hwf.node_of_id hfind hl hml hid).2.2
        exact List.inj_on_of_nodup_map hwf.2.2.2.2.1 hm hn0all (this.trans hn0a.symm)
      · rintro rfl
        exact hn0id
    by_cases hmn : m = n0
    · simp [hmn, hn0id]
    · have hne : ¬ m.order.id = id := fun h => hmn (this.1 h)
      simp [hmn, hne]
  · intro s p
    rw [h3 s]
    exact Levels.queue_without s id p _ (hwf.sorted s)
  · intro s p
    rw [h3 s]
    exact Levels.find_without_eq_none_iff s id p _ (hwf.sorted s)

/-- C7 at the book `bookModifyScenario` and the registered id 4. -/
theorem CancelOrder_removes_exactly_witness :
    bookModifyScenario.WellFormed ∧ bookModifyScenario.orders.find 4 ≠ none ∧
    ∃ b1, bookModifyScenario.CancelOrder 4 = .ok b1 ∧
      b1.orders = bookModifyScenario.orders.erase 4 ∧
      b1.bids = bookModifyScenario.bids.without 4 :=
  ⟨by decide, by decide,
    (CancelOrder_removes_exactly bookModifyScenario 4 (by decide) (by decide)).imp
      (fun _ h => ⟨h.1, h.2.1, h.2.2.1⟩)⟩

/-- C8: `CancelOrder` is idempotent.  For every well-formed book `b` and every id the
first call returns normally with some book `b1`, and the second call, on `b1`, returns
normally with `b1` again: it changes nothing and raises no error. -/
theorem CancelOrder_idempotent (b : Orderbook) (id : OrderId) (hwf : b.WellFormed) :
    ∃ b1, b.CancelOrder id = .ok b1 ∧ b1.CancelOrder id = .ok b1 := by
  obtain ⟨b1, h1, h2⟩ := CancelOrder_ok_of_located hwf.2.2.2.2.2.2.2 id
  exact ⟨b1, h1, CancelOrder_absent h2⟩

/-- C8 at the book `bookOneBid` and the registered id 1. -/
theorem CancelOrder_idempotent_witness :
    bookOneBid.WellFormed ∧
    ∃ b1, bookOneBid.CancelOrder 1 = .ok b1 ∧ b1.CancelOrder 1 = .ok b1 :=
  ⟨by decide, CancelOrder_idempotent bookOneBid 1 (by decide)⟩

/-- C9: for every book state and every id that is not in the registry, `CancelOrder`
returns normally with the book unchanged, and `ModifyOrder` with that id (and any side,
price and quantity) returns normally with an empty trade list and the book unchanged. -/
theorem unknown_id_is_noop (b : Orderbook) (id : OrderId) (h : b.orders.find id = none) :
    b.CancelOrder id = .ok b ∧
    ∀ side price qty, b.ModifyOrder { id := id, side := side, price := price, qty := qty } =
      .ok ([], b) := by
  refine ⟨CancelOrder_absent h, ?_⟩
  intro side price qty
  unfold Orderbook.ModifyOrder
  simp [h]

/-- C9 at the book `bookOneBid` and the unregistered id 7. -/
theorem unknown_id_is_noop_witness :
    bookOneBid.orders.find 7 = none ∧ bookOneBid.CancelOrder 7 = .ok bookOneBid ∧
    ∀ side price qty,
      bookOneBid.ModifyOrder { id := 7, side := side, price := price, qty := qty } =
        .ok ([], bookOneBid) :=
  ⟨by decide, unknown_id_is_noop bookOneBid 7 (by decide)⟩

/-- C10: price-time priority of the matching loop.  For every well-formed book
`MatchOrders` returns normally, and for every side and all nodes `m`, `n` of that side
with `m` ahead of `n` (at a strictly better price, or in the same queue and earlier): if
`n` is not left in the book as it was (its remaining quantity was decreased, or it was
removed), then `m` has been removed (no node left on the side has its address or holds
an order of its id) and completely filled (the trades naming its id on its side add up to
its remaining quantity).  The second case of `Ahead` is the arrival order within one
price level. -/
theorem MatchOrders_price_time_priority (b : Orderbook) (hwf : b.WellFormed) :
    ∃ trades b1, b.MatchOrders = .ok (trades, b1) ∧
      ∀ s m n, (b.levels s).Ahead s m n → n ∉ (b1.levels s).nodes →
        (∀ x ∈ (b1.levels s).nodes, x.addr ≠ m.addr ∧ x.order.id ≠ m.order.id) ∧
        filledQty trades s m.order.id = m.order.remainingQty := by
  obtain ⟨trades, b1, h1, hrb, hra⟩ := MatchOrders_residual b
  obtain ⟨trades2, b2, h2, hcons⟩ := MatchOrders_conserve b
  rw [h1] at h2
  injection h2 with h2
  injection h2 with ht hb
  subst ht hb
  refine ⟨trades, b1, h1, ?_⟩
  intro s m n hahead hn
  have hres : Residual (b.levels s).nodes (b1.levels s).nodes := by
    cases s
    · exact hrb
    · exact hra
  have hcon : filledQty trades s m.order.id + restingQty (b1.levels s).nodes m.order.id =
      restingQty (b.levels s).nodes m.order.id := by
    cases s
    · exact (hcons m.order.id).1
    · exact (hcons m.order.id).2
  have hnd : ((b.levels s).nodes.map Node.addr).Nodup :=
    List.Nodup.sublist ((b.sublist_allNodes s).map Node.addr) hwf.2.2.2.2.1
  obtain ⟨pre, mid, post, hsplit⟩ := hahead.nodes_split (hwf.sorted s)
  have hm : m ∈ (b.levels s).nodes := hahead.mem_left
  have haddr := hres.ahead_removed hnd hsplit hn
  have hids : ∀ x ∈ (b1.levels s).nodes, x.order.id ≠ m.order.id := by
    intro x hx hid
    obtain ⟨x0, hx0, hx0a, hx0id⟩ := hres.mem hx
    have := hwf.addr_eq_of_id_eq hm hx0 (hx0id.trans hid)
    exact haddr x hx (hx0a.symm.trans this)
  refine ⟨fun x hx => ⟨haddr x hx, hids x hx⟩, ?_⟩
  rw [restingQty_eq_zero hids,
    restingQty_eq_of_unique hm hnd (fun x hx hid => hwf.addr_eq_of_id_eq hm hx hid)] at hcon
  exact hcon

/-- C10 at the book `bookCrossed`: the sell of 7 fills the buy id 1 (5, first in the
queue at 100) and then 2 of the buy id 2 behind it; id 2 was touched, id 1 is gone and
its trades add up to 5. -/
theorem MatchOrders_price_time_priority_witness :
    bookCrossed.WellFormed ∧
    ∃ trades b1, bookCrossed.MatchOrders = .ok (trades, b1) ∧
      b1.bids = [(100, [{ addr := 2, order :=
        { Order.new .GoodTillCancel 2 .Buy 100 5 with remainingQty := 3 } }])] ∧
      (∀ x ∈ b1.bids.nodes, x.addr ≠ 1 ∧ x.order.id ≠ 1) ∧
      filledQty trades .Buy 1 = 5 := by
  refine ⟨by decide, ?_⟩
  obtain ⟨trades, b1, h1, h2⟩ := MatchOrders_price_time_priority bookCrossed (by decide)
  have he : bookCrossed.MatchOrders = .ok
      ([{ bid := { id := 1, price := 100, qty := 5 }, ask := { id := 3, price := 90, qty := 5 } },
        { bid := { id := 2, price := 100, qty := 2 }, ask := { id := 3, price := 90, qty := 2 } }],
       { bids := [(100, [{ addr := 2, order :=
           { Order.new .GoodTillCancel 2 .Buy 100 5 with remainingQty := 3 } }])],
         asks := [],
         orders :=
           [(2, { type := .GoodTillCancel, side := .Buy, price := 100, location := 2 })] }) := by
    decide
  rw [he] at h1
  injection h1 with h1
  injection h1 with ht hb
  subst ht hb
  have h3 := h2 .Buy { addr := 1, order := Order.new .GoodTillCancel 1 .Buy 100 5 }
    { addr := 2, order := Order.new .GoodTillCancel 2 .Buy 100 5 }
    (Or.inr ⟨_, List.mem_cons_self _ _, [], [], [], rfl⟩) (by decide)
  exact ⟨_, _, he, rfl, h3.1, h3.2⟩

/-- C11: conservation in the matching loop.  For every well-formed book (in which order
ids are unique) `MatchOrders` returns normally and:
every trade has `bid.qty = ask.qty`;
a trade names an order only in the record of the side of the order;
for every order that rested on a side, the quantities of the trades that name it add up
to the decrease of its remaining quantity: either it is gone from the book and they add
up to its whole remaining quantity, or it rests with remaining quantity `r` and they add
up to the old remaining quantity minus `r`;
so the quantity filled by the loop is at most the remaining quantity, with what was
filled before it is at most the initial quantity, and `remainingQty ≤ initialQty` is
kept for every resting order. -/
theorem MatchOrders_conservation (b : Orderbook) (hwf : b.WellFormed) :
    ∃ trades b1, b.MatchOrders = .ok (trades, b1) ∧
      (∀ t ∈ trades, t.bid.qty = t.ask.qty) ∧
      (∀ t ∈ trades, (∀ n ∈ b.bids.nodes, t.ask.id ≠ n.order.id) ∧
        (∀ n ∈ b.asks.nodes, t.bid.id ≠ n.order.id)) ∧
      (∀ s, ∀ n ∈ (b.levels s).nodes,
        ((∀ x ∈ (b1.levels s).nodes, x.order.id ≠ n.order.id) ∧
          filledQty trades s n.order.id = n.order.remainingQty) ∨
        (∃ r, r ≤ n.order.remainingQty ∧ n.withRemaining r ∈ (b1.levels s).nodes ∧
          filledQty trades s n.order.id + r = n.order.remainingQty)) ∧
      (∀ s, ∀ n ∈ (b.levels s).nodes,
        filledQty trades s n.order.id ≤ n.order.remainingQty ∧
        (n.order.remainingQty ≤ n.order.initialQty →
          (n.order.initialQty - n.order.remainingQty) + filledQty trades s n.order.id ≤
            n.order.initialQty)) ∧
      ((∀ s, ∀ n ∈ (b.levels s).nodes, n.order.remainingQty ≤ n.order.initialQty) →
        ∀ s, ∀ x ∈ (b1.levels s).nodes, x.order.remainingQty ≤ x.order.initialQty) := by
  obtain ⟨trades, b1, h1, hrb, hra⟩ := MatchOrders_residual b
  obtain ⟨trades2, b2, h2, hcons⟩ := MatchOrders_conserve b
  rw [h1] at h2
  injection h2 with h2
  injection h2 with ht hb
  subst ht hb
  obtain ⟨trades3, b3, h3, hfrom⟩ := MatchOrders_tradeFrom b
    (fun l hl n hn => (hwf.nodes .Buy l hl n hn).2.1)
    (fun l hl n hn => (hwf.nodes .Sell l hl n hn).2.1)
  rw [h1] at h3
  injection h3 with h3
  injection h3 with ht hb
  subst ht hb
  have hres : ∀ s, Residual (b.levels s).nodes (b1.levels s).nodes := by
    intro s
    cases s
    · exact hrb
    · exact hra
  have hcon : ∀ s id, filledQty trades s id + restingQty (b1.levels s).nodes id =
      restingQty (b.levels s).nodes id := by
    intro s id
    cases s
    · exact (hcons id).1
    · exact (hcons id).2
  have hnd : ∀ s, ((b.levels s).nodes.map Node.addr).Nodup := fun s =>
    List.Nodup.sublist ((b.sublist_allNodes s).map Node.addr) hwf.2.2.2.2.1
  have hmain : ∀ s, ∀ n ∈ (b.levels s).nodes,
      ((∀ x ∈ (b1.levels s).nodes, x.order.id ≠ n.order.id) ∧
        filledQty trades s n.order.id = n.order.remainingQty) ∨
      (∃ r, r ≤ n.order.remainingQty ∧ n.withRemaining r ∈ (b1.levels s).nodes ∧
        filledQty trades s n.order.id + r = n.order.remainingQty) := by
    intro s n hn
    exact (hres s).filled_or_rests (hnd s)
      (fun x hx y hy hid => hwf.addr_eq_of_id_eq hy hx hid) hn (hcon s n.order.id)
  have hle : ∀ s, ∀ n ∈ (b.levels s).nodes,
      filledQty trades s n.order.id ≤ n.order.remainingQty := by
    intro s n hn
    rcases hmain s n hn with ⟨-, h⟩ | ⟨r, -, -, h⟩
    · exact le_of_eq h
    · exact h ▸ Nat.le_add_right _ _
  refine ⟨trades, b1, h1, fun t ht => (hfrom t ht).2.2.2, ?_, hmain, ?_, ?_⟩
  · intro t ht
    obtain ⟨⟨nb, hnb, hbid, -⟩, ⟨na, hna, haid, -⟩, -, -⟩ := hfrom t ht
    constructor
    · intro n hn hid
      exact hwf.id_ne_across hn hna (hid.symm.trans haid)
    · intro n hn hid
      exact hwf.id_ne_across hnb hn (hbid.symm.trans hid)
  · intro s n hn
    refine ⟨hle s n hn, ?_⟩
    intro hinit
    have := hle s n hn
    simp only [Quantity] at *
    omega
  · intro hinv s x hx
    obtain ⟨x0, hx0, r, hr, rfl⟩ := (hres s).mem_eq hx
    exact le_trans hr (hinv s x0 hx0)

/-- C11 at the book `bookCrossed`: the buy id 1 is gone and its trades add up to 5, the
buy id 2 rests with 3 and its trades add up to 2, the sell id 3 is gone and its trades
add up to 7. -/
theorem MatchOrders_conservation_witness :
    bookCrossed.WellFormed ∧
    ∃ trades b1, bookCrossed.MatchOrders = .ok (trades, b1) ∧
      (∀ t ∈ trades, t.bid.qty = t.ask.qty) ∧
      filledQty trades .Buy 1 = 5 ∧ filledQty trades .Buy 2 = 2 ∧
      filledQty trades .Sell 3 = 7 ∧
      b1.bids.nodes = [{ addr := 2, order :=
        { Order.new .GoodTillCancel 2 .Buy 100 5 with remainingQty := 3 } }] ∧
      b1.asks.nodes = [] := by
  refine ⟨by decide, ?_⟩
  obtain ⟨trades, b1, h1, h2, -⟩ := MatchOrders_conservation bookCrossed (by decide)
  have he : bookCrossed.MatchOrders = .ok
      ([{ bid := { id := 1, price := 100, qty := 5 }, ask := { id := 3, price := 90, qty := 5 } },
        { bid := { id := 2, price := 100, qty := 2 }, ask := { id := 3, price := 90, qty := 2 } }],
       { bids := [(100, [{ addr := 2, order :=
           { Order.new .GoodTillCancel 2 .Buy 100 5 with remainingQty := 3 } }])],
         asks := [],
         orders :=
           [(2, { type := .GoodTillCancel, side := .Buy, price := 100, location := 2 })] }) := by
    decide
  rw [he] at h1
  injection h1 with h1
  injection h1 with ht hb
  subst ht hb
  exact ⟨_, _, he, h2, by decide, by decide, by decide, rfl, rfl⟩

/-- C12: for every well-formed book `MatchOrders` returns normally, and every trade it
returns has a bid record with the id and the limit price of a buy order that rested on
the bid side and an ask record with the id and the limit price of a sell order that
rested on the ask side (each record carries the price of its own order), and the price
of the bid record is greater than or equal to the price of the ask record. -/
theorem MatchOrders_trade_records (b : Orderbook) (hwf : b.WellFormed) :
    ∃ trades b1, b.MatchOrders = .ok (trades, b1) ∧
      ∀ t ∈ trades,
        (∃ n ∈ b.bids.nodes, n.order.side = .Buy ∧
          t.bid.id = n.order.id ∧ t.bid.price = n.order.price) ∧
        (∃ n ∈ b.asks.nodes, n.order.side = .Sell ∧
          t.ask.id = n.order.id ∧ t.ask.price = n.order.price) ∧
        t.bid.price ≥ t.ask.price := by
  obtain ⟨trades, b1, h1, ht⟩ := MatchOrders_tradeFrom b
    (fun l hl n hn => (hwf.nodes .Buy l hl n hn).2.1)
    (fun l hl n hn => (hwf.nodes .Sell l hl n hn).2.1)
  refine ⟨trades, b1, h1, ?_⟩
  intro t htm
  obtain ⟨⟨nb, hnb, hbid, hbp⟩, ⟨na, hna, haid, hap⟩, hle, -⟩ := ht t htm
  obtain ⟨lb, hlb, hnlb⟩ := Levels.mem_nodes.1 hnb
  obtain ⟨la, hla, hnla⟩ := Levels.mem_nodes.1 hna
  exact ⟨⟨nb, hnb, (hwf.nodes .Buy lb hlb nb hnlb).1, hbid, hbp⟩,
    ⟨na, hna, (hwf.nodes .Sell la hla na hnla).1, haid, hap⟩, hle⟩

/-- C12 at the book `bookCrossed`: two trades, each with bid price 100 (the limit of the
buys) and ask price 90 (the limit of the sell). -/
theorem MatchOrders_trade_records_witness :
    bookCrossed.WellFormed ∧
    bookCrossed.MatchOrders.map Prod.fst = .ok
      [{ bid := { id := 1, price := 100, qty := 5 }, ask := { id := 3, price := 90, qty := 5 } },
       { bid := { id := 2, price := 100, qty := 2 }, ask := { id := 3, price := 90, qty := 2 } }] ∧
    ∃ trades b1, bookCrossed.MatchOrders = .ok (trades, b1) ∧
      ∀ t ∈ trades,
        (∃ n ∈ bookCrossed.bids.nodes, n.order.side = .Buy ∧
          t.bid.id = n.order.id ∧ t.bid.price = n.order.price) ∧
        (∃ n ∈ bookCrossed.asks.nodes, n.order.side = .Sell ∧
          t.ask.id = n.order.id ∧ t.ask.price = n.order.price) ∧
        t.bid.price ≥ t.ask.price :=
  ⟨by decide, by decide, MatchOrders_trade_records bookCrossed (by decide)⟩

/-- C13: `GetOrderInfos` returns one entry per price level, in map order: the entry of a
level carries the price of the level and the sum of the remaining quantities of the
orders resting there, accumulated in the 32-bit unsigned `Quantity` type (so reduced
modulo `2 ^ 32`, and equal to the sum itself whenever that is below `2 ^ 32`).  With the
maps in comparator order, as `std::map` keeps them, the bid entries are in strictly
descending and the ask entries in strictly ascending price order. -/
theorem GetOrderInfos_levels (b : Orderbook) (hs : b.MapsSorted) :
    b.GetOrderInfos.bids =
      b.bids.map (fun l => { price := l.1, quantity := queueQty l.2 % 2 ^ 32 }) ∧
    b.GetOrderInfos.asks =
      b.asks.map (fun l => { price := l.1, quantity := queueQty l.2 % 2 ^ 32 }) ∧
    b.GetOrderInfos.bids.length = b.bids.length ∧
    b.GetOrderInfos.asks.length = b.asks.length ∧
    (b.GetOrderInfos.bids.map LevelInfo.price).Pairwise (fun p q => q < p) ∧
    (b.GetOrderInfos.asks.map LevelInfo.price).Pairwise (fun p q => p < q) ∧
    (∀ l ∈ b.bids ++ b.asks, queueQty l.2 < 2 ^ 32 →
      createLevel l.1 l.2 = { price := l.1, quantity := queueQty l.2 }) := by
  have hb : b.GetOrderInfos.bids =
      b.bids.map (fun l => { price := l.1, quantity := queueQty l.2 % 2 ^ 32 }) := by
    simp only [Orderbook.GetOrderInfos, createLevel_eq]
  have ha : b.GetOrderInfos.asks =
      b.asks.map (fun l => { price := l.1, quantity := queueQty l.2 % 2 ^ 32 }) := by
    simp only [Orderbook.GetOrderInfos, createLevel_eq]
  refine ⟨hb, ha, by simp [Orderbook.GetOrderInfos], by simp [Orderbook.GetOrderInfos],
    ?_, ?_, ?_⟩
  · have h := hs.1
    unfold Levels.Sorted at h
    rw [hb, List.map_map]
    simpa [Side.before, Function.comp] using h
  · have h := hs.2
    unfold Levels.Sorted at h
    rw [ha, List.map_map]
    simpa [Side.before, Function.comp] using h
  · intro l _ hlt
    rw [createLevel_eq, Nat.mod_eq_of_lt hlt]

/-- C13 at the book `bookCrossed`: one bid entry (price 100, quantity 10) and one ask
entry (price 90, quantity 7). -/
theorem GetOrderInfos_levels_witness :
    bookCrossed.MapsSorted ∧
    bookCrossed.GetOrderInfos =
      { bids := [{ price := 100, quantity := 10 }], asks := [{ price := 90, quantity := 7 }] } ∧
    bookCrossed.GetOrderInfos.bids =
      bookCrossed.bids.map (fun l => { price := l.1, quantity := queueQty l.2 % 2 ^ 32 }) :=
  ⟨by decide, by decide, (GetOrderInfos_levels bookCrossed (by decide)).1⟩

/-- C16: `CanMatch(side, price)` is true if and only if the best opposing price exists and
crosses.  With the maps in comparator order, as `std::map` keeps them: for Buy the asks
have a level of lowest price and that price is at most `price`; for Sell the bids have a
level of highest price and that price is at least `price`. -/
theorem CanMatch_iff_best_crosses (b : Orderbook) (hs : b.MapsSorted) (price : Price) :
    (b.CanMatch .Buy price = true ↔
      ∃ al ∈ b.asks, (∀ l ∈ b.asks, al.1 ≤ l.1) ∧ al.1 ≤ price) ∧
    (b.CanMatch .Sell price = true ↔
      ∃ bl ∈ b.bids, (∀ l ∈ b.bids, l.1 ≤ bl.1) ∧ price ≤ bl.1) := by
  constructor
  · cases ha : b.asks with
    | nil => simp [Orderbook.CanMatch, ha]
    | cons al rest =>
      obtain ⟨ap, aq⟩ := al
      have hsorted : Levels.Sorted .Sell ((ap, aq) :: rest) := ha ▸ hs.2
      have hlow : ∀ l ∈ (ap, aq) :: rest, ap ≤ l.1 := by
        intro l hl
        rcases hsorted.head_before hl with h | h
        · exact le_of_eq h.symm
        · simp only [Side.before, decide_eq_true_eq] at h
          exact le_of_lt h
      simp only [Orderbook.CanMatch, ha, decide_eq_true_eq, ge_iff_le]
      constructor
      · intro h
        exact ⟨(ap, aq), List.mem_cons_self _ _, hlow, h⟩
      · rintro ⟨al, hal, -, hp⟩
        exact le_trans (hlow al hal) hp
  · cases hb : b.bids with
    | nil => simp [Orderbook.CanMatch, hb]
    | cons bl rest =>
      obtain ⟨bp, bq⟩ := bl
      have hsorted : Levels.Sorted .Buy ((bp, bq) :: rest) := hb ▸ hs.1
      have hhigh : ∀ l ∈ (bp, bq) :: rest, l.1 ≤ bp := by
        intro l hl
        rcases hsorted.head_before hl with h | h
        · exact le_of_eq h
        · simp only [Side.before, decide_eq_true_eq] at h
          exact le_of_lt h
      simp only [Orderbook.CanMatch, hb, decide_eq_true_eq]
      constructor
      · intro h
        exact ⟨(bp, bq), List.mem_cons_self _ _, hhigh, h⟩
      · rintro ⟨bl, hbl, -, hp⟩
        exact le_trans hp (hhigh bl hbl)

/-- C16 at the book `bookCrossed`: a buy at 95 can match the ask at 90, a sell at 101
cannot match the bid at 100. -/
theorem CanMatch_iff_best_crosses_witness :
    bookCrossed.MapsSorted ∧ bookCrossed.CanMatch .Buy 95 = true ∧
    ¬ bookCrossed.CanMatch .Sell 101 = true ∧
    ((bookCrossed.CanMatch .Buy 95 = true ↔
        ∃ al ∈ bookCrossed.asks, (∀ l ∈ bookCrossed.asks, al.1 ≤ l.1) ∧ al.1 ≤ 95) ∧
     (bookCrossed.CanMatch .Sell 95 = true ↔
        ∃ bl ∈ bookCrossed.bids, (∀ l ∈ bookCrossed.bids, l.1 ≤ bl.1) ∧ 95 ≤ bl.1)) :=
  ⟨by decide, by decide, by decide, CanMatch_iff_best_crosses bookCrossed (by decide) 95⟩

/-- C17: no empty price level persists.  For every book in which every bid and ask level
has a non-empty queue: `AddOrder` returns normally, for every order, with a book that
again has no empty level; whenever `CancelOrder` or `ModifyOrder` returns normally, for
any argument, its book again has no empty level (their only other results are the
exceptions of the container accesses in `CancelOrder`); and they do return normally, for
every argument, when every registry entry designates a node of its queue. -/
theorem no_empty_level_persists (b : Orderbook) (hb : b.bids.NoEmpty) (ha : b.asks.NoEmpty) :
    (∀ order, ∃ trades b1, b.AddOrder order = .ok (trades, b1) ∧
      b1.bids.NoEmpty ∧ b1.asks.NoEmpty) ∧
    (∀ id b1, b.CancelOrder id = .ok b1 → b1.bids.NoEmpty ∧ b1.asks.NoEmpty) ∧
    (∀ mod trades b1, b.ModifyOrder mod = .ok (trades, b1) →
      b1.bids.NoEmpty ∧ b1.asks.NoEmpty) ∧
    (b.EntriesLocated →
      (∀ id, ∃ b1, b.CancelOrder id = .ok b1) ∧
      (∀ mod, ∃ trades b1, b.ModifyOrder mod = .ok (trades, b1))) := by
  refine ⟨fun order => AddOrder_noEmpty b order hb ha,
    fun id b1 h => CancelOrder_noEmpty h hb ha, ?_, ?_⟩
  · intro mod trades b1 h
    unfold Orderbook.ModifyOrder at h
    split at h
    · cases h
      exact ⟨hb, ha⟩
    · split at h
      · cases h
      · rename_i b2 hc
        have h2 := CancelOrder_noEmpty hc hb ha
        obtain ⟨t3, b3, h3, hne⟩ := AddOrder_noEmpty b2 (mod.ToOrderPointer _) h2.1 h2.2
        rw [h3] at h
        cases h
        exact hne
  · intro hloc
    exact ⟨fun id => (CancelOrder_ok_of_located hloc id).imp (fun _ h => h.1),
      fun mod => ModifyOrder_ok_of_located hloc mod⟩

/-- C17 at the book `bookCrossed`: a crossing sell with the registered id 3 empties and
removes levels, a cancel of id 1 and a modify of id 2 leave no empty level. -/
theorem no_empty_level_persists_witness :
    bookCrossed.bids.NoEmpty ∧ bookCrossed.asks.NoEmpty ∧
    (∃ trades b1, bookCrossed.AddOrder (Order.new .GoodTillCancel 3 .Sell 90 20) =
      .ok (trades, b1) ∧ b1.bids.NoEmpty ∧ b1.asks.NoEmpty) ∧
    (∃ b1, bookCrossed.CancelOrder 1 = .ok b1 ∧ b1.bids.NoEmpty ∧ b1.asks.NoEmpty) :=
  have h := no_empty_level_persists bookCrossed (by decide) (by decide)
  ⟨by decide, by decide, h.1 _,
    (h.2.2.2 (by decide)).1 1 |>.imp (fun b1 hc => ⟨hc, h.2.1 1 b1 hc⟩)⟩

/-- C18: the matching loop terminates on every book state.  `MatchOrders` returns
normally, every fuel bound that is at least the number of levels gives the same result
(so the result is that of the loop, not of the bound), and in the book it leaves a side
has no level or the front bid price is strictly below the front ask price; with the maps
in comparator order the front prices are the best prices and the book is not crossed. -/
theorem MatchOrders_terminates (b : Orderbook) :
    ∃ trades b1, b.MatchOrders = .ok (trades, b1) ∧
      (∀ fuel, b.bids.length + b.asks.length ≤ fuel →
        matchLoop fuel b.bids b.asks b.orders [] = .ok (trades, b1)) ∧
      (b1.bids = [] ∨ b1.asks = [] ∨
        ∃ bl al, b1.bids.head? = some bl ∧ b1.asks.head? = some al ∧ bl.1 < al.1) ∧
      (b.MapsSorted → b1.NotCrossed) := by
  obtain ⟨trades, b1, h1, hX⟩ := MatchOrders_ok_front b
  refine ⟨trades, b1, h1, ?_, ?_, ?_⟩
  · intro fuel hle
    exact matchLoop_fuel_le hle _ _ _ _ _ h1
  · cases hb : b1.bids with
    | nil => exact Or.inl rfl
    | cons bl bidsRest =>
      cases ha : b1.asks with
      | nil => exact Or.inr (Or.inl rfl)
      | cons al asksRest =>
        exact Or.inr (Or.inr ⟨bl, al, rfl, rfl, hX bl al (by simp [hb]) (by simp [ha])⟩)
  · intro hs
    obtain ⟨trades2, b2, h2, -, hn⟩ := MatchOrders_notCrossed b hs
    rw [h1] at h2
    injection h2 with h2
    injection h2 with _ hb
    rw [hb]
    exact hn

/-- C18 on a book holding only zero-quantity orders: the loop pops the two front orders
with a trade of quantity 0 and stops when the asks are empty. -/
theorem MatchOrders_terminates_zero_quantity :
    bookZeroQty.MatchOrders = .ok
      ([{ bid := { id := 1, price := 100, qty := 0 }, ask := { id := 3, price := 90, qty := 0 } }],
       { bids := [(100, [{ addr := 2, order := Order.new .GoodTillCancel 2 .Buy 100 0 }])],
         asks := [],
         orders :=
           [(2, { type := .GoodTillCancel, side := .Buy, price := 100, location := 2 })] }) := by
  decide

/-- C19: the overfill error of `Order::Fill` is unreachable.  The two calls of `Fill` in
the body of the matching loop, with the smaller of the two remaining quantities, return
normally for all orders; so on every book state (whatever the quantities of its resting
orders) and for every argument `AddOrder` returns normally and `ModifyOrder` does not end
in the overfill error. -/
theorem Fill_overfill_unreachable (b : Orderbook) :
    (∀ bid ask : Node,
      (∃ o, bid.order.Fill (min bid.order.remainingQty ask.order.remainingQty) = .ok o) ∧
      (∃ o, ask.order.Fill (min bid.order.remainingQty ask.order.remainingQty) = .ok o)) ∧
    (∀ order, ∃ trades b1, b.AddOrder order = .ok (trades, b1)) ∧
    (∀ mod id, b.ModifyOrder mod ≠ .error (.overfill id)) := by
  refine ⟨fun bid ask => ⟨⟨_, Order.Fill_le _ (Nat.min_le_left _ _)⟩,
    ⟨_, Order.Fill_le _ (Nat.min_le_right _ _)⟩⟩, AddOrder_ok b, ?_⟩
  intro mod id h
  unfold Orderbook.ModifyOrder at h
  split at h
  · cases h
  · split at h
    · rename_i e hc
      cases h
      rcases CancelOrder_error hc with h | h <;> cases h
    · rename_i b1 _
      obtain ⟨t, b2, h2⟩ := AddOrder_ok b1 (mod.ToOrderPointer _)
      rw [h2] at h
      cases h

/-- C20: starting from the empty book, for every finite sequence of `AddOrder`,
`CancelOrder` and `ModifyOrder` calls with arbitrary arguments, every call returns
normally, every `AddOrder` and `ModifyOrder` call returns an empty trade list, and the
book after every call is the empty book, whose `Size()` is 0 and whose `GetOrderInfos`
has no bid and no ask level. -/
theorem empty_book_stays_empty (calls : List Call) :
    Orderbook.empty.run calls =
      .ok (calls.map (fun c => (c.noTrades, Orderbook.empty))) ∧
    Orderbook.empty.Size = 0 ∧
    Orderbook.empty.GetOrderInfos = { bids := [], asks := [] } := by
  refine ⟨?_, rfl, rfl⟩
  induction calls with
  | nil => rfl
  | cons c rest ih =>
    unfold Orderbook.run
    simp only [call_empty, ih, List.map_cons]

end OrderBook
